import Mathlib

set_option maxHeartbeats 1600000
set_option linter.unusedSectionVars false
set_option linter.unusedVariables false

/-!
Shallow embedding of `src/src/execution/aggregate_hashtable.cpp`
(`SuperLargeHashTable`), a linear-probing aggregating hash table.

Modelling conventions, stated once here and referenced below:

* A slot's raw bytes `[FLAG][GROUPS][PAYLOAD][COUNT]` are modelled as a
  `Slot` record: the one-byte flag as a `Bool` (`EMPTY_CELL = false`,
  `FULL_CELL = true`; the constants come from the class header, which
  matches spec §3), the concatenated `group_width` group-key bytes as one
  abstract key of a type `K` with decidable equality (the `memcmp` on
  line 110 is byte equality of canonical fixed-width representations, so
  it coincides with key equality), the `payload_width` accumulator bytes
  as one `Int` per non-COUNT_STAR aggregate (spec §3: one fixed-width
  accumulator per aggregate, `payload_width` equals the sum of the
  accumulator widths), and the trailing 8-byte counter as a `Nat`.
* The hash pipeline (lines 53-68: `Hash`, `CombineHash`, `Cast`,
  `Modulo`, `Multiply`, `Add`) is external to this file's source; per
  spec §4.1 it deterministically maps the row's grouping keys to a slot
  index `hash k % capacity`.  We keep the composite as a parameter
  `hash : K → Nat` of the configuration and work with slot indices
  instead of byte addresses (`address = data + index * tuple_size`).
* Reading memory outside the `capacity * tuple_size`-byte buffer is
  modelled as the error `HTErr.probeOutOfBounds`: the bytes there are not
  determined by the program state.  Note that the wrap test on line 119
  (`entry > data + tuple_size * capacity`, strict) lets the probe
  dereference the slot at index `capacity` — one slot past the end of the
  buffer — before any wrap can happen, so in defined executions a probe
  only ever visits indices `start, start+1, ..., capacity-1` and then
  runs off the end.
* The vector scatter/gather primitives (`VectorOperations::Scatter::Set`,
  `SetCount`, `AddOne`, `Add`, `Min`, `Max`, `Gather::Set`) live in
  repository code not under `src/`; they are modelled from the spec (§6):
  each primitive walks the (selection of) rows in order and
  reads/writes the memory addressed by the matching pointer.
* Machine arithmetic: aggregate accumulators are modelled as
  unbounded `Int` (spec §1 lists accumulator overflow as a non-goal and
  §4.3 delegates range control to the producer); the one place where the
  C++ integer conversion rules are observable — the AVG division at scan
  time, line 279 — is modelled bit-precisely (`avgDivInt`).
-/

namespace AggHT

/-- Aggregate function kinds, the `ExpressionType` values dispatched on in
`AddChunk` (lines 133-190) and `Scan` (lines 233-264). -/
inductive AggType : Type
  | countStar
  | count
  | sum
  | avg
  | min
  | max
deriving DecidableEq

/-- One ingested row: the concatenated grouping key and one payload value
per non-COUNT_STAR aggregate (the caller's aligned `groups`/`payload`
chunks, spec §6). -/
structure Row (K : Type) where
  key : K
  vals : List Int
deriving DecidableEq

/-- One slot of the table, the record `[FLAG][GROUPS][PAYLOAD][COUNT]` of
lines 17-23.  `flag = false` is `EMPTY_CELL`.  For an empty slot the
`key`, `acc` and `count` fields are junk (spec §3 invariant 1: undefined
bytes); nothing below depends on them. -/
structure Slot (K : Type) where
  flag : Bool
  key : K
  acc : List Int
  count : Nat
deriving DecidableEq

/-- Construction parameters of `SuperLargeHashTable` (lines 9-25) plus
the externally-supplied deterministic hash pipeline.  `colWidths` records
the byte width of each non-COUNT_STAR payload/output column (the
`GetTypeIdSize` values); the scan-time AVG division depends on it. -/
structure HTConfig (K : Type) where
  capacity : Nat
  groupWidth : Nat
  payloadWidth : Nat
  aggTypes : List AggType
  colWidths : List Nat
  parallel : Bool
  hash : K → Nat

/-- Aggregates that own a payload column, in declaration order
(COUNT_STAR is skipped by the `j` counter on lines 134-136). -/
def nonStarAggs {K : Type} (cfg : HTConfig K) : List AggType :=
  cfg.aggTypes.filter (fun a => decide (a ≠ AggType.countStar))

/-- Number of payload columns / per-slot accumulators. -/
def nPayload {K : Type} (cfg : HTConfig K) : Nat := (nonStarAggs cfg).length

/-- Mutable state of the table: the slot buffer (indices `0 ≤ i <
capacity` are the owned buffer), the occupied-slot counter `entries` and
the probe-length diagnostic `max_chain`. -/
structure HTState (K : Type) where
  slots : Nat → Slot K
  entries : Nat
  maxChain : Nat

variable {K : Type} [DecidableEq K] [Inhabited K]

/-- Slot `i` is occupied (`FULL_CELL`). -/
def slotFull (s : HTState K) (i : Nat) : Prop := (s.slots i).flag = true

instance (s : HTState K) (i : Nat) : Decidable (slotFull s i) :=
  inferInstanceAs (Decidable (_ = true))

/-- Pointwise update of the slot buffer. -/
def setSlot (f : Nat → Slot K) (t : Nat) (sl : Slot K) : Nat → Slot K :=
  fun i => if i = t then sl else f i

/-- The table right after construction: `Resize` (lines 29-46) marks
every slot in `[0, capacity)` empty; the remaining bytes of each slot are
uninitialized (we fill junk values that nothing depends on). -/
def freshState (cfg : HTConfig K) : HTState K :=
  { slots := fun _ => ⟨false, default, List.replicate (nPayload cfg) 0, 0⟩
    entries := 0
    maxChain := 0 }

/-- Errors surfaced by the model of `AddChunk`:
`parallelUnimplemented` is the `NotImplementedException` of line 71;
`probeOutOfBounds` marks the probe loop dereferencing the slot at index
`capacity`, one past the owned buffer (see the header comment). -/
inductive HTErr : Type
  | parallelUnimplemented
  | probeOutOfBounds
deriving DecidableEq

/-- Outcome of probing for one row (lines 96-122): either an empty slot
was claimed or a slot holding the row's key was found. -/
inductive ProbeHit : Type
  | claimed (t : Nat)
  | matched (t : Nat)
deriving DecidableEq

/-- Structural-recursion core of the probe loop: `gas` is only a
recursion measure (the caller passes `capacity - i`, which bounds the
number of remaining in-bounds slots, so the `gas = 0` case coincides
with the `i ≥ capacity` exit); it does not alter the loop's behaviour. -/
def probeLoop (cfg : HTConfig K) (s : HTState K) (k : K) :
    Nat → Nat → Option ProbeHit
  | _, 0 => none
  | i, gas + 1 =>
    if i < cfg.capacity then
      if (s.slots i).flag = false then some (.claimed i)
      else if (s.slots i).key = k then some (.matched i)
      else probeLoop cfg s k (i + 1) gas
    else none

/-- The linear-probe loop of lines 96-122 for one row, started at slot
`i = hash % capacity`: an empty slot is claimed, a byte-equal key is a
match, otherwise advance one slot.  As explained in the header comment,
the strict wrap test of line 119 means the first slot the loop inspects
after `capacity - 1` is the out-of-bounds slot `capacity`; that read is
modelled as `none`. -/
def probeFrom (cfg : HTConfig K) (s : HTState K) (k : K) (i : Nat) :
    Option ProbeHit :=
  probeLoop cfg s k i (cfg.capacity - i)

/-- Claiming an empty slot (lines 99-108): set `FULL_CELL`, copy the
grouping keys, `memset` the payload and count bytes to zero, bump
`entries`. -/
def claimSlot (cfg : HTConfig K) (s : HTState K) (t : Nat) (k : K) :
    HTState K :=
  { s with
    slots := setSlot s.slots t ⟨true, k, List.replicate (nPayload cfg) 0, 0⟩
    entries := s.entries + 1 }

/-- Result of the probe phase for one row: the row's index in the batch
(the `sel_t` written to `new_entries`/`updated_entries`, lines 106/112),
the slot the row was routed to (`ptr[i]`, line 125), the row itself, and
whether the slot was claimed (`new`) or matched (`updated`). -/
structure Hit (K : Type) where
  rowIdx : Nat
  slot : Nat
  row : Row K
  isNew : Bool
deriving DecidableEq

/-- The per-row probe loop of lines 82-127 over a whole batch, threading
the table state (group keys are written into claimed slots immediately,
so later rows of the batch can match them) and recording per row a `Hit`
(target slot plus new/updated classification) and the `max_chain`
update of line 126 (`chain = t - start`, since no wrap occurs in defined
executions). -/
def probeRows (cfg : HTConfig K) :
    HTState K → Nat → List (Row K) → Except HTErr (HTState K × List (Hit K))
  | s, _, [] => .ok (s, [])
  | s, i0, r :: rs =>
    let start := cfg.hash r.key % cfg.capacity
    match probeFrom cfg s r.key start with
    | none => .error .probeOutOfBounds
    | some (.claimed t) =>
      let s1 := claimSlot cfg s t r.key
      let s2 := { s1 with maxChain := Max.max (t - start) s1.maxChain }
      match probeRows cfg s2 (i0 + 1) rs with
      | .error e => .error e
      | .ok (s3, hits) => .ok (s3, ⟨i0, t, r, true⟩ :: hits)
    | some (.matched t) =>
      let s2 := { s with maxChain := Max.max (t - start) s.maxChain }
      match probeRows cfg s2 (i0 + 1) rs with
      | .error e => .error e
      | .ok (s3, hits) => .ok (s3, ⟨i0, t, r, false⟩ :: hits)

/-- Replace accumulator `j` of slot `t` by a function of its old value
(the effect of one scatter write at address `payload base + offset of
column j`). -/
def modifyAcc (s : HTState K) (t j : Nat) (g : Int → Int) : HTState K :=
  let sl := s.slots t
  let sl2 : Slot K := { sl with acc := sl.acc.set j (g (sl.acc.getD j 0)) }
  { s with slots := setSlot s.slots t sl2 }

/-- Modelled from the spec: `VectorOperations::Scatter::{Set, SetCount,
AddOne, Add, Min, Max}` (repository code not under `src/`), §6: "write
each row to the memory pointed to by the matching address", restricted
by the active selection vector.  The walk is in selection order; `f` is
the per-element combine (for `Set` it ignores the old value). -/
def scatterSel (j : Nat) (f : Int → Int → Int) :
    List (Hit K) → HTState K → HTState K
  | [], s => s
  | h :: hs, s =>
    scatterSel j f hs (modifyAcc s h.slot j (fun old => f old (h.row.vals.getD j 0)))

/-- Initial-set action for a newly claimed slot (lines 142-155):
`SetCount` writes 1 for COUNT (spec §4.3), `Set` writes the payload value
for SUM/AVG/MIN/MAX.  (COUNT_STAR never reaches a scatter.) -/
def aggInit : AggType → Int → Int
  | .count, _ => 1
  | _, v => v

/-- Update action for an existing slot (lines 163-182): `AddOne` for
COUNT, `Add` for SUM/AVG, `Min`/`Max` for MIN/MAX.  (COUNT_STAR never
reaches a scatter.) -/
def aggStep : AggType → Int → Int → Int
  | .count, old, _ => old + 1
  | .min, old, v => Min.min old v
  | .max, old, v => Max.max old v
  | _, old, v => old + v

/-- The aggregate-update loop of lines 132-190: for each aggregate in
declaration order (skipping COUNT_STAR, which owns no payload column),
scatter the initial-set over the `new_entries` selection, then the
update over the `updated_entries` selection, then move to the next
payload column (`j + 1` abstracts the address advancement by the
column width on lines 185-188).  The `new_count > 0` / `updated_count >
0` guards of lines 137/157 are omitted: a scatter over an empty
selection is a no-op.  The `default:` throw of lines 153/180 is
unreachable because `AggType` covers exactly the handled kinds. -/
def aggLoop (newSel updSel : List (Hit K)) :
    List AggType → Nat → HTState K → HTState K
  | [], _, s => s
  | .countStar :: as, j, s => aggLoop newSel updSel as j s
  | a :: as, j, s =>
    let s1 := scatterSel j (fun _ v => aggInit a v) newSel s
    let s2 := scatterSel j (aggStep a) updSel s1
    aggLoop newSel updSel as (j + 1) s2

/-- Add 1 to the trailing count of slot `t`. -/
def bumpCount (s : HTState K) (t : Nat) : HTState K :=
  let sl := s.slots t
  { s with slots := setSlot s.slots t { sl with count := sl.count + 1 } }

/-- Modelled from the spec: the final `Scatter::Add(one, addresses)` of
lines 191-192 (the scatter primitive is repository code not under
`src/`): after the aggregate loop every row's address points at its
slot's trailing 8-byte count, and the constant 1 is scatter-added for
every row of the batch (selection cleared, count restored to
`groups.count` on lines 185-186). -/
def addOneCounts : List (Hit K) → HTState K → HTState K
  | [], s => s
  | h :: hs, s => addOneCounts hs (bumpCount s h.slot)

/-- `SuperLargeHashTable::AddChunk` (lines 48-193): empty batches return
immediately (line 49); `parallel` tables throw before the table is
touched (lines 70-72); otherwise the probe phase routes every row to a
slot and the aggregate phase scatters the updates and bumps the counts. -/
def addChunk (cfg : HTConfig K) (s : HTState K) (rows : List (Row K)) :
    Except HTErr (HTState K) :=
  if rows.isEmpty then .ok s
  else if cfg.parallel then .error .parallelUnimplemented
  else
    match probeRows cfg s 0 rows with
    | .error e => .error e
    | .ok (s1, hits) =>
      .ok (addOneCounts hits
        (aggLoop (hits.filter (fun h => h.isNew))
          (hits.filter (fun h => !h.isNew)) cfg.aggTypes 0 s1))

/-- A sequence of `AddChunk` calls starting from a given state. -/
def ingestAll (cfg : HTConfig K) :
    HTState K → List (List (Row K)) → Except HTErr (HTState K)
  | s, [] => .ok s
  | s, c :: cs =>
    match addChunk cfg s c with
    | .error e => .error e
    | .ok s1 => ingestAll cfg s1 cs

/-- The state reached by ingesting `chunks` into a fresh table (junk
fresh state if some call failed; used to name concrete final states in
closed statements). -/
def afterIngest (cfg : HTConfig K) (chunks : List (List (Row K))) :
    HTState K :=
  match ingestAll cfg (freshState cfg) chunks with
  | .ok s => s
  | .error _ => freshState cfg

/-- The `(sel_vector, count)` pair of each processed payload column after
`AddChunk` returns, per lines 137-161: for every non-COUNT_STAR
aggregate `j`, `payload.data[j]->sel_vector` and `->count` are assigned
the `new_entries` selection when it is non-empty and then the
`updated_entries` selection when it is non-empty, and are never restored
(the branch bodies are the only writes and every processed column gets
the same final value).  If every aggregate is COUNT_STAR the loop body
never runs and the caller's fields are untouched. -/
def payloadMetaAfter (cfg : HTConfig K) (s : HTState K) (rows : List (Row K))
    (orig : Option (List Nat) × Nat) : Except HTErr (Option (List Nat) × Nat) :=
  match probeRows cfg s 0 rows with
  | .error e => .error e
  | .ok (_, hits) =>
    if cfg.aggTypes.all (fun a => decide (a = AggType.countStar)) then .ok orig
    else
      let newSel := (hits.filter (fun h => h.isNew)).map (fun h => h.rowIdx)
      let updSel := (hits.filter (fun h => !h.isNew)).map (fun h => h.rowIdx)
      if updSel.isEmpty then
        if newSel.isEmpty then .ok orig else .ok (some newSel, newSel.length)
      else .ok (some updSel, updSel.length)

/-- Slot record size in bytes, line 23:
`FLAG_SIZE + group_width + payload_width + sizeof(int64_t)`. -/
def tupleSize (cfg : HTConfig K) : Nat :=
  1 + cfg.groupWidth + cfg.payloadWidth + 8

/-- Structural-recursion core of the scan collection loop; `gas` is only
a recursion measure (the caller passes `capacity - i`, so `gas = 0`
coincides with the `ptr ≥ end` exit). -/
def scanWalkLoop (cfg : HTConfig K) (s : HTState K) (maxSize : Nat) :
    Nat → Nat → Nat → List Nat × Nat
  | i, _, 0 => ([], i)
  | i, found, gas + 1 =>
    if i < cfg.capacity ∧ found < maxSize then
      if (s.slots i).flag then
        let r := scanWalkLoop cfg s maxSize (i + 1) (found + 1) gas
        (i :: r.1, r.2)
      else scanWalkLoop cfg s maxSize (i + 1) found gas
    else ([], i)

/-- The collection loop of `Scan`, lines 211-218: walk slots from `i`
while the pointer is below the buffer end and fewer than `maxSize` full
slots have been found; return the full slots found (in slot order) and
the slot index at which the loop's pointer stopped. -/
def scanWalk (cfg : HTConfig K) (s : HTState K) (maxSize : Nat)
    (i found : Nat) : List Nat × Nat :=
  scanWalkLoop cfg s maxSize i found (cfg.capacity - i)

/-- Two's-complement reinterpretation of the low `w` bits of `n` as a
signed value (the implementation-defined narrowing conversion back to
the column type on line 279; it wraps on the targeted compilers). -/
def toSigned (w : Nat) (n : Nat) : Int :=
  if n % 2 ^ w < 2 ^ (w - 1) then (n % 2 ^ w : Nat)
  else (n % 2 ^ w : Nat) - 2 ^ w

/-- The per-row AVG division of `_gather_average_templated_loop`
(lines 273-281) for a signed integer column of `w` bits:
`ldata[i] = source[i][0] / count`.  The left operand is the stored sum
(type `T`), the right operand is the trailing 8-byte counter read as
`uint64_t`; by the C++ usual arithmetic conversions the sum is converted
to `uint64_t` (two's complement, i.e. `sum mod 2^64`), the division is
unsigned, and the quotient is narrowed back to `T`. -/
def avgDivInt (w : Nat) (sum : Int) (count : Nat) : Int :=
  toSigned w ((sum.emod (2 ^ 64)).toNat / count)

/-- The aggregate output columns of `Scan` (lines 232-264), one list per
aggregate in declaration order, values for the emitted slots in order:
COUNT_STAR gathers the trailing count (second pass, lines 257-264); AVG
divides the stored sum by the trailing count fetched at `current
address + (payload_width - current_bytes)` like lines 242-249, which
under the layout contract (`payload_width` = sum of the column widths,
spec §3) is exactly the slot's COUNT field; every other aggregate
gathers its accumulator. -/
def scanCols (cfg : HTConfig K) (s : HTState K) (full : List Nat) :
    List AggType → Nat → List (List Int)
  | [], _ => []
  | .countStar :: as, j =>
    (full.map fun t => ((s.slots t).count : Int)) :: scanCols cfg s full as j
  | .avg :: as, j =>
    (full.map fun t =>
      avgDivInt (8 * cfg.colWidths.getD j 8) ((s.slots t).acc.getD j 0)
        (s.slots t).count) :: scanCols cfg s full as (j + 1)
  | _ :: as, j =>
    (full.map fun t => (s.slots t).acc.getD j 0) :: scanCols cfg s full as (j + 1)

/-- Output of one `Scan` call: emitted slots, gathered group keys,
aggregate columns, the out-chunks' row count, and the caller's
`scan_position` after the call. -/
structure ScanOut (K : Type) where
  fullSlots : List Nat
  groupsOut : List K
  resultOut : List (List Int)
  outCount : Nat
  newPos : Nat
deriving DecidableEq

/-- `SuperLargeHashTable::Scan` (lines 197-268).  The incoming
`scan_position` is used as a slot index (`start = data + scan_position *
tuple_size`, line 202); if `start >= end` the call returns with empty
output (lines 204-205), likewise when no full slot is found (lines
219-221).  Otherwise the full slots found are emitted and
`scan_position` is set to `ptr - start` (line 267) — the BYTE distance
the pointer travelled this call, i.e. `(stop - pos) * tuple_size`. -/
def scan (cfg : HTConfig K) (s : HTState K) (pos maxSize : Nat) : ScanOut K :=
  if cfg.capacity * tupleSize cfg ≤ pos * tupleSize cfg then ⟨[], [], [], 0, pos⟩
  else
    let w := scanWalk cfg s maxSize pos 0
    if w.1.length = 0 then ⟨[], [], [], 0, pos⟩
    else
      ⟨w.1, w.1.map (fun t => (s.slots t).key),
        scanCols cfg s w.1 cfg.aggTypes 0, w.1.length,
        (w.2 - pos) * tupleSize cfg⟩

/-- Drive `Scan` the way spec §8 property 6 prescribes: start at cursor
0 and repeat, feeding back the returned cursor, until a call emits no
rows; collect the emitted slot indices.  `fuel` bounds the number of
calls (the claims only need finitely many). -/
def scanUntilEmpty (cfg : HTConfig K) (s : HTState K) (maxSize : Nat) :
    Nat → Nat → List Nat
  | 0, _ => []
  | fuel + 1, pos =>
    let r := scan cfg s pos maxSize
    if r.outCount = 0 then [] else r.fullSlots ++ scanUntilEmpty cfg s maxSize fuel r.newPos

/-! ### Small list helpers -/

theorem getD_set_self (l : List Int) (j : Nat) (v : Int) (h : j < l.length) :
    (l.set j v).getD j 0 = v := by
  rw [List.getD_eq_getElem _ _ (by simpa using h)]
  simp [List.getElem_set]

theorem getD_set_ne (l : List Int) (j i : Nat) (v : Int) (h : i ≠ j) :
    (l.set j v).getD i 0 = l.getD i 0 := by
  rcases Nat.lt_or_ge i l.length with hi | hi
  · rw [List.getD_eq_getElem _ _ (by simpa using hi), List.getD_eq_getElem _ _ hi]
    simp [List.getElem_set, h.symm]
  · rw [List.getD_eq_default _ _ (by simpa using hi), List.getD_eq_default _ _ hi]

theorem getD_replicate_zero (n j : Nat) :
    (List.replicate n (0 : Int)).getD j 0 = 0 := by
  rcases Nat.lt_or_ge j n with h | h
  · rw [List.getD_eq_getElem _ _ (by simpa using h)]; simp
  · rw [List.getD_eq_default _ _ (by simpa using h)]

theorem filter_key_nil {H : List (Row K)} {k : K}
    (h : k ∉ H.map Row.key) :
    H.filter (fun r => decide (r.key = k)) = [] := by
  rw [List.filter_eq_nil_iff]
  intro r hr
  simp only [decide_eq_true_eq]
  intro hk
  exact h (List.mem_map.mpr ⟨r, hr, hk⟩)

theorem filter_key_ne_nil {H : List (Row K)} {k : K}
    (h : k ∈ H.map Row.key) :
    H.filter (fun r => decide (r.key = k)) ≠ [] := by
  rw [Ne, List.filter_eq_nil_iff]
  push_neg
  rcases List.mem_map.mp h with ⟨r, hr, hk⟩
  exact ⟨r, hr, by simp [hk]⟩

/-! ### Fold characterizations of the aggregate scatter actions -/

/-- Net value of one accumulator after the code's scatter sequence over
the rows of one group: the initial-set of the first routed row followed
by the update action of each later routed row, in order.  Used only in
statements and proofs; the `[]` case is junk (a FULL slot always has at
least one routed row). -/
def aggValue (a : AggType) : List Int → Int
  | [] => 0
  | v :: vs => vs.foldl (aggStep a) (aggInit a v)

theorem aggValue_append (a : AggType) (xs ys : List Int) (h : xs ≠ []) :
    aggValue a (xs ++ ys) = ys.foldl (aggStep a) (aggValue a xs) := by
  cases xs with
  | nil => exact absurd rfl h
  | cons x xs' => simp [aggValue, List.foldl_append]

theorem foldl_step_sum (l : List Int) (a : Int) :
    l.foldl (aggStep .sum) a = a + l.sum := by
  induction l generalizing a with
  | nil => simp
  | cons x l ih =>
    have hs : aggStep .sum a x = a + x := rfl
    simp only [List.foldl_cons, hs, ih, List.sum_cons]
    ring

theorem aggValue_sum (l : List Int) (h : l ≠ []) :
    aggValue .sum l = l.sum := by
  cases l with
  | nil => exact absurd rfl h
  | cons v vs =>
    have hi : aggInit .sum v = v := rfl
    simp [aggValue, foldl_step_sum, hi]

theorem foldl_min_le_init (l : List Int) (a : Int) :
    l.foldl (aggStep .min) a ≤ a := by
  induction l generalizing a with
  | nil => simp
  | cons x l ih =>
    have hs : aggStep .min a x = Min.min a x := rfl
    simp only [List.foldl_cons, hs]
    exact le_trans (ih _) (min_le_left _ _)

theorem foldl_min_le_mem (l : List Int) (a x : Int) (h : x ∈ l) :
    l.foldl (aggStep .min) a ≤ x := by
  induction l generalizing a with
  | nil => cases h
  | cons y l ih =>
    have hs : aggStep .min a y = Min.min a y := rfl
    simp only [List.foldl_cons, hs]
    rcases List.mem_cons.mp h with rfl | hx
    · exact le_trans (foldl_min_le_init _ _) (min_le_right _ _)
    · exact ih _ hx

theorem foldl_min_mem_or (l : List Int) (a : Int) :
    l.foldl (aggStep .min) a = a ∨ l.foldl (aggStep .min) a ∈ l := by
  induction l generalizing a with
  | nil => left; rfl
  | cons x l ih =>
    have hs : aggStep .min a x = Min.min a x := rfl
    simp only [List.foldl_cons, hs]
    rcases ih (Min.min a x) with he | hm
    · rcases min_choice a x with hc | hc
      · left; rw [he, hc]
      · right; rw [he, hc]; exact List.mem_cons_self _ _
    · right; exact List.mem_cons_of_mem _ hm

theorem foldl_max_ge_init (l : List Int) (a : Int) :
    a ≤ l.foldl (aggStep .max) a := by
  induction l generalizing a with
  | nil => simp
  | cons x l ih =>
    have hs : aggStep .max a x = Max.max a x := rfl
    simp only [List.foldl_cons, hs]
    exact le_trans (le_max_left _ _) (ih _)

theorem foldl_max_ge_mem (l : List Int) (a x : Int) (h : x ∈ l) :
    x ≤ l.foldl (aggStep .max) a := by
  induction l generalizing a with
  | nil => cases h
  | cons y l ih =>
    have hs : aggStep .max a y = Max.max a y := rfl
    simp only [List.foldl_cons, hs]
    rcases List.mem_cons.mp h with rfl | hx
    · exact le_trans (le_max_right _ _) (foldl_max_ge_init _ _)
    · exact ih _ hx

theorem foldl_max_mem_or (l : List Int) (a : Int) :
    l.foldl (aggStep .max) a = a ∨ l.foldl (aggStep .max) a ∈ l := by
  induction l generalizing a with
  | nil => left; rfl
  | cons x l ih =>
    have hs : aggStep .max a x = Max.max a x := rfl
    simp only [List.foldl_cons, hs]
    rcases ih (Max.max a x) with he | hm
    · rcases max_choice a x with hc | hc
      · left; rw [he, hc]
      · right; rw [he, hc]; exact List.mem_cons_self _ _
    · right; exact List.mem_cons_of_mem _ hm

theorem aggValue_min_mem (l : List Int) (h : l ≠ []) : aggValue .min l ∈ l := by
  cases l with
  | nil => exact absurd rfl h
  | cons v vs =>
    have hi : aggInit .min v = v := rfl
    simp only [aggValue, hi]
    rcases foldl_min_mem_or vs v with he | hm
    · rw [he]; exact List.mem_cons_self _ _
    · exact List.mem_cons_of_mem _ hm

theorem aggValue_min_le (l : List Int) (x : Int) (hx : x ∈ l) :
    aggValue .min l ≤ x := by
  cases l with
  | nil => cases hx
  | cons v vs =>
    have hi : aggInit .min v = v := rfl
    simp only [aggValue, hi]
    rcases List.mem_cons.mp hx with rfl | hm
    · exact foldl_min_le_init _ _
    · exact foldl_min_le_mem _ _ _ hm

theorem aggValue_max_mem (l : List Int) (h : l ≠ []) : aggValue .max l ∈ l := by
  cases l with
  | nil => exact absurd rfl h
  | cons v vs =>
    have hi : aggInit .max v = v := rfl
    simp only [aggValue, hi]
    rcases foldl_max_mem_or vs v with he | hm
    · rw [he]; exact List.mem_cons_self _ _
    · exact List.mem_cons_of_mem _ hm

theorem aggValue_max_ge (l : List Int) (x : Int) (hx : x ∈ l) :
    x ≤ aggValue .max l := by
  cases l with
  | nil => cases hx
  | cons v vs =>
    have hi : aggInit .max v = v := rfl
    simp only [aggValue, hi]
    rcases List.mem_cons.mp hx with rfl | hm
    · exact foldl_max_ge_init _ _
    · exact foldl_max_ge_mem _ _ _ hm

/-! ### Analysis of the probe loop -/

theorem probeLoop_claimed_spec (cfg : HTConfig K) (s : HTState K) (k : K) :
    ∀ gas i t, probeLoop cfg s k i gas = some (.claimed t) →
      i ≤ t ∧ t < cfg.capacity ∧ ¬ slotFull s t ∧
        ∀ m, i ≤ m → m < t → slotFull s m ∧ (s.slots m).key ≠ k := by
  intro gas
  induction gas with
  | zero => intro i t h; cases h
  | succ gas ih =>
    intro i t h
    rw [probeLoop] at h
    by_cases hi : i < cfg.capacity
    · rw [if_pos hi] at h
      by_cases hf : (s.slots i).flag = false
      · rw [if_pos hf] at h
        have ht : i = t := by
          injection h with h'
          injection h'
        subst ht
        refine ⟨le_refl _, hi, by simp [slotFull, hf], ?_⟩
        intro m h1 h2
        omega
      · rw [if_neg hf] at h
        by_cases hk : (s.slots i).key = k
        · rw [if_pos hk] at h
          simp at h
        · rw [if_neg hk] at h
          have hfull : slotFull s i := by
            revert hf
            unfold slotFull
            cases (s.slots i).flag <;> simp
          obtain ⟨h1, h2, h3, h4⟩ := ih (i + 1) t h
          refine ⟨by omega, h2, h3, ?_⟩
          intro m hm1 hm2
          rcases Nat.eq_or_lt_of_le hm1 with rfl | hm
          · exact ⟨hfull, hk⟩
          · exact h4 m hm hm2
    · rw [if_neg hi] at h
      cases h

theorem probeFrom_claimed_spec (cfg : HTConfig K) (s : HTState K) (k : K)
    (i t : Nat) (h : probeFrom cfg s k i = some (.claimed t)) :
    i ≤ t ∧ t < cfg.capacity ∧ ¬ slotFull s t ∧
      ∀ m, i ≤ m → m < t → slotFull s m ∧ (s.slots m).key ≠ k :=
  probeLoop_claimed_spec cfg s k (cfg.capacity - i) i t h

theorem probeLoop_matched_spec (cfg : HTConfig K) (s : HTState K) (k : K) :
    ∀ gas i t, probeLoop cfg s k i gas = some (.matched t) →
      i ≤ t ∧ t < cfg.capacity ∧ slotFull s t ∧ (s.slots t).key = k ∧
        ∀ m, i ≤ m → m < t → slotFull s m ∧ (s.slots m).key ≠ k := by
  intro gas
  induction gas with
  | zero => intro i t h; cases h
  | succ gas ih =>
    intro i t h
    rw [probeLoop] at h
    by_cases hi : i < cfg.capacity
    · rw [if_pos hi] at h
      by_cases hf : (s.slots i).flag = false
      · rw [if_pos hf] at h
        simp at h
      · rw [if_neg hf] at h
        have hfull : slotFull s i := by
          revert hf
          unfold slotFull
          cases (s.slots i).flag <;> simp
        by_cases hk : (s.slots i).key = k
        · rw [if_pos hk] at h
          have ht : i = t := by
            injection h with h'
            injection h'
          subst ht
          refine ⟨le_refl _, hi, hfull, hk, ?_⟩
          intro m h1 h2
          omega
        · rw [if_neg hk] at h
          obtain ⟨h1, h2, h3, h4, h5⟩ := ih (i + 1) t h
          refine ⟨by omega, h2, h3, h4, ?_⟩
          intro m hm1 hm2
          rcases Nat.eq_or_lt_of_le hm1 with rfl | hm
          · exact ⟨hfull, hk⟩
          · exact h5 m hm hm2
    · rw [if_neg hi] at h
      cases h

theorem probeFrom_matched_spec (cfg : HTConfig K) (s : HTState K) (k : K)
    (i t : Nat) (h : probeFrom cfg s k i = some (.matched t)) :
    i ≤ t ∧ t < cfg.capacity ∧ slotFull s t ∧ (s.slots t).key = k ∧
      ∀ m, i ≤ m → m < t → slotFull s m ∧ (s.slots m).key ≠ k :=
  probeLoop_matched_spec cfg s k (cfg.capacity - i) i t h

/-! ### Invariants tying the table to the ingested rows -/

/-- Rows of `H` whose grouping key is `k`, in ingestion order. -/
def rowsFor (k : K) (H : List (Row K)) : List (Row K) :=
  H.filter (fun r => decide (r.key = k))

/-- Hits routed to slot `t`, in row order. -/
def hitsAt (t : Nat) (hits : List (Hit K)) : List (Hit K) :=
  hits.filter (fun h => decide (h.slot = t))

theorem setSlot_self (f : Nat → Slot K) (t : Nat) (sl : Slot K) :
    setSlot f t sl t = sl := by simp [setSlot]

theorem setSlot_ne (f : Nat → Slot K) (t : Nat) (sl : Slot K) (i : Nat)
    (h : i ≠ t) : setSlot f t sl i = f i := by simp [setSlot, h]

theorem hitsAt_cons (u : Nat) (h : Hit K) (l : List (Hit K)) :
    hitsAt u (h :: l) = if h.slot = u then h :: hitsAt u l else hitsAt u l := by
  simp only [hitsAt, List.filter_cons]
  by_cases hs : h.slot = u <;> simp [hs]

theorem rowsFor_cons (k : K) (r : Row K) (l : List (Row K)) :
    rowsFor k (r :: l) = if r.key = k then r :: rowsFor k l else rowsFor k l := by
  simp only [rowsFor, List.filter_cons]
  by_cases hs : r.key = k <;> simp [hs]

theorem rowsFor_append (k : K) (a b : List (Row K)) :
    rowsFor k (a ++ b) = rowsFor k a ++ rowsFor k b := by
  unfold rowsFor
  simp [List.filter_append]

theorem rowsFor_nil_of_not_mem {H : List (Row K)} {k : K}
    (h : k ∉ H.map Row.key) : rowsFor k H = [] := filter_key_nil h

theorem rowsFor_ne_nil_of_mem {H : List (Row K)} {k : K}
    (h : k ∈ H.map Row.key) : rowsFor k H ≠ [] := filter_key_ne_nil h

/-- Structural invariant on flags and keys after ingesting the rows `H`
from a fresh table: distinct FULL slots hold distinct keys (spec §3
invariant 2), every stored key was observed, every observed key is
stored, and all slots from a FULL slot's home position `hash % capacity`
up to the slot itself are FULL (linear probing without wrap, which is
what makes a later probe for the same key reach the slot again). -/
structure KeyInv (cfg : HTConfig K) (s : HTState K) (H : List (Row K)) : Prop where
  inj : ∀ i j, i < cfg.capacity → j < cfg.capacity → slotFull s i → slotFull s j →
    (s.slots i).key = (s.slots j).key → i = j
  sound : ∀ i, i < cfg.capacity → slotFull s i → (s.slots i).key ∈ H.map Row.key
  complete : ∀ r ∈ H, ∃ i, i < cfg.capacity ∧ slotFull s i ∧ (s.slots i).key = r.key
  path : ∀ i, i < cfg.capacity → slotFull s i →
    cfg.hash (s.slots i).key % cfg.capacity ≤ i ∧
      ∀ m, cfg.hash (s.slots i).key % cfg.capacity ≤ m → m ≤ i → slotFull s m

/-- Full data invariant: `KeyInv` plus the trailing counter of every
FULL slot counting exactly its group's rows and every accumulator
holding the scatter fold of its group's payload column. -/
structure TableInv (cfg : HTConfig K) (s : HTState K) (H : List (Row K))
    extends KeyInv cfg s H : Prop where
  counts : ∀ i, i < cfg.capacity → slotFull s i →
    (s.slots i).count = (rowsFor (s.slots i).key H).length
  accLen : ∀ i, i < cfg.capacity → slotFull s i →
    (s.slots i).acc.length = nPayload cfg
  accs : ∀ i, i < cfg.capacity → slotFull s i → ∀ j, j < nPayload cfg →
    (s.slots i).acc.getD j 0 =
      aggValue ((nonStarAggs cfg).getD j .countStar)
        ((rowsFor (s.slots i).key H).map (fun r => r.vals.getD j 0))

theorem tableInv_fresh (cfg : HTConfig K) :
    TableInv cfg (freshState cfg) [] := by
  have hempty : ∀ i, ¬ slotFull (freshState cfg) i := by
    intro i
    simp [slotFull, freshState]
  refine ⟨⟨?_, ?_, ?_, ?_⟩, ?_, ?_, ?_⟩
  · intro i j _ _ hf; exact absurd hf (hempty i)
  · intro i _ hf; exact absurd hf (hempty i)
  · intro r hr; cases hr
  · intro i _ hf; exact absurd hf (hempty i)
  · intro i _ hf; exact absurd hf (hempty i)
  · intro i _ hf; exact absurd hf (hempty i)
  · intro i _ hf; exact absurd hf (hempty i)

theorem keyInv_slots_congr {cfg : HTConfig K} {s s' : HTState K}
    {H : List (Row K)} (hs : s'.slots = s.slots) (kinv : KeyInv cfg s H) :
    KeyInv cfg s' H := by
  refine ⟨?_, ?_, ?_, ?_⟩ <;> simp only [slotFull, hs]
  · exact kinv.inj
  · exact kinv.sound
  · exact kinv.complete
  · exact kinv.path

/-- If the probe for key `k` claims an empty slot, then `k` is stored
nowhere in the table: an existing slot with key `k` would lie on the
probe path (by `KeyInv.path`) and the probe would have matched it. -/
theorem claimed_not_present {cfg : HTConfig K} {s : HTState K}
    {H : List (Row K)} {k : K} {t : Nat} (kinv : KeyInv cfg s H)
    (h : probeFrom cfg s k (cfg.hash k % cfg.capacity) = some (.claimed t)) :
    ∀ u, u < cfg.capacity → slotFull s u → (s.slots u).key ≠ k := by
  intro u hu hfu hk
  obtain ⟨hst, htc, hte, hmid⟩ :=
    probeFrom_claimed_spec cfg s k _ t h
  obtain ⟨hpu, hpath⟩ := kinv.path u hu hfu
  rw [hk] at hpu hpath
  rcases Nat.lt_or_ge u t with hlt | hge
  · exact (hmid u hpu hlt).2 hk
  · exact hte (hpath t hst hge)

/-- Claiming the empty slot found by a probe preserves the structural
invariant, with the probed row appended to the history. -/
theorem keyInv_claim {cfg : HTConfig K} {s : HTState K} {H : List (Row K)}
    {r : Row K} {t : Nat} (kinv : KeyInv cfg s H)
    (h : probeFrom cfg s r.key (cfg.hash r.key % cfg.capacity) = some (.claimed t)) :
    KeyInv cfg (claimSlot cfg s t r.key) (H ++ [r]) := by
  obtain ⟨hst, htc, hte, hmid⟩ :=
    probeFrom_claimed_spec cfg s r.key _ t h
  have hnp := claimed_not_present kinv h
  have hslot_t : (claimSlot cfg s t r.key).slots t =
      ⟨true, r.key, List.replicate (nPayload cfg) 0, 0⟩ := by
    simp [claimSlot, setSlot]
  have hslot_ne : ∀ u, u ≠ t →
      (claimSlot cfg s t r.key).slots u = s.slots u := by
    intro u hu
    simp [claimSlot, setSlot, hu]
  have hfull_t : slotFull (claimSlot cfg s t r.key) t := by
    simp [slotFull, hslot_t]
  have hfull_ne : ∀ u, u ≠ t →
      (slotFull (claimSlot cfg s t r.key) u ↔ slotFull s u) := by
    intro u hu
    simp [slotFull, hslot_ne u hu]
  refine ⟨?_, ?_, ?_, ?_⟩
  · intro i j hi hj hfi hfj hkey
    by_cases hit : i = t <;> by_cases hjt : j = t
    · rw [hit, hjt]
    · subst hit
      rw [hslot_t] at hkey
      rw [hslot_ne j hjt] at hkey
      exact absurd hkey.symm (hnp j hj ((hfull_ne j hjt).mp hfj))
    · subst hjt
      rw [hslot_t] at hkey
      rw [hslot_ne i hit] at hkey
      exact absurd hkey (hnp i hi ((hfull_ne i hit).mp hfi))
    · rw [hslot_ne i hit, hslot_ne j hjt] at hkey
      exact kinv.inj i j hi hj ((hfull_ne i hit).mp hfi) ((hfull_ne j hjt).mp hfj) hkey
  · intro i hi hfi
    by_cases hit : i = t
    · subst hit
      rw [hslot_t]
      simp
    · rw [hslot_ne i hit]
      have := kinv.sound i hi ((hfull_ne i hit).mp hfi)
      simp only [List.map_append, List.mem_append]
      exact Or.inl this
  · intro r' hr'
    rcases List.mem_append.mp hr' with hmem | hmem
    · obtain ⟨u, hu, hfu, hku⟩ := kinv.complete r' hmem
      have hut : u ≠ t := by
        intro he
        rw [he] at hfu
        exact hte hfu
      exact ⟨u, hu, (hfull_ne u hut).mpr hfu, by rw [hslot_ne u hut]; exact hku⟩
    · have : r' = r := List.mem_singleton.mp hmem
      subst this
      exact ⟨t, htc, hfull_t, by rw [hslot_t]⟩
  · intro i hi hfi
    by_cases hit : i = t
    · subst hit
      rw [hslot_t]
      refine ⟨hst, ?_⟩
      intro m hm1 hm2
      rcases Nat.eq_or_lt_of_le hm2 with rfl | hlt
      · exact hfull_t
      · have hmt : m ≠ i := by omega
        exact (hfull_ne m hmt).mpr (hmid m hm1 hlt).1
    · rw [hslot_ne i hit]
      obtain ⟨h1, h2⟩ := kinv.path i hi ((hfull_ne i hit).mp hfi)
      refine ⟨h1, ?_⟩
      intro m hm1 hm2
      by_cases hmt : m = t
      · subst hmt; exact hfull_t
      · exact (hfull_ne m hmt).mpr (h2 m hm1 hm2)

/-- A matched probe leaves the table unchanged; the probed row's key is
already stored, so the structural invariant extends to the appended
history. -/
theorem keyInv_matched {cfg : HTConfig K} {s : HTState K} {H : List (Row K)}
    {r : Row K} {t : Nat} (kinv : KeyInv cfg s H)
    (h : probeFrom cfg s r.key (cfg.hash r.key % cfg.capacity) = some (.matched t)) :
    KeyInv cfg s (H ++ [r]) := by
  obtain ⟨hst, htc, htf, htk, hmid⟩ :=
    probeFrom_matched_spec cfg s r.key _ t h
  refine ⟨kinv.inj, ?_, ?_, kinv.path⟩
  · intro i hi hfi
    simp only [List.map_append, List.mem_append]
    exact Or.inl (kinv.sound i hi hfi)
  · intro r' hr'
    rcases List.mem_append.mp hr' with hmem | hmem
    · exact kinv.complete r' hmem
    · have : r' = r := List.mem_singleton.mp hmem
      subst this
      exact ⟨t, htc, htf, htk⟩

/-! ### Unfolding lemmas for the batch probe loop -/

theorem probeRows_nil_ok (cfg : HTConfig K) {s : HTState K} {i0 : Nat}
    {s1 : HTState K} {hits : List (Hit K)}
    (h : probeRows cfg s i0 [] = .ok (s1, hits)) : s1 = s ∧ hits = [] := by
  simp only [probeRows, Except.ok.injEq, Prod.mk.injEq] at h
  exact ⟨h.1.symm, h.2.symm⟩

theorem probeRows_cons_claimed_ok (cfg : HTConfig K) {s : HTState K} {i0 : Nat}
    {r : Row K} {rs : List (Row K)} {t : Nat} {s1 : HTState K}
    {hits : List (Hit K)}
    (hpf : probeFrom cfg s r.key (cfg.hash r.key % cfg.capacity) = some (.claimed t))
    (h : probeRows cfg s i0 (r :: rs) = .ok (s1, hits)) :
    ∃ s2 hits', hits = ⟨i0, t, r, true⟩ :: hits' ∧
      s2.slots = (claimSlot cfg s t r.key).slots ∧
      probeRows cfg s2 (i0 + 1) rs = .ok (s1, hits') := by
  rw [probeRows] at h
  simp only [hpf] at h
  cases hrec : probeRows cfg
      { claimSlot cfg s t r.key with
        maxChain := Max.max (t - cfg.hash r.key % cfg.capacity)
          (claimSlot cfg s t r.key).maxChain } (i0 + 1) rs with
  | error e => rw [hrec] at h; cases h
  | ok p =>
    obtain ⟨s3, hits'⟩ := p
    rw [hrec] at h
    rw [Except.ok.injEq, Prod.mk.injEq] at h
    obtain ⟨h1, h2⟩ := h
    subst h1
    refine ⟨_, hits', h2.symm, ?_, hrec⟩
    rfl

theorem probeRows_cons_matched_ok (cfg : HTConfig K) {s : HTState K} {i0 : Nat}
    {r : Row K} {rs : List (Row K)} {t : Nat} {s1 : HTState K}
    {hits : List (Hit K)}
    (hpf : probeFrom cfg s r.key (cfg.hash r.key % cfg.capacity) = some (.matched t))
    (h : probeRows cfg s i0 (r :: rs) = .ok (s1, hits)) :
    ∃ s2 hits', hits = ⟨i0, t, r, false⟩ :: hits' ∧
      s2.slots = s.slots ∧
      probeRows cfg s2 (i0 + 1) rs = .ok (s1, hits') := by
  rw [probeRows] at h
  simp only [hpf] at h
  cases hrec : probeRows cfg
      { s with maxChain := Max.max (t - cfg.hash r.key % cfg.capacity) s.maxChain }
      (i0 + 1) rs with
  | error e => rw [hrec] at h; cases h
  | ok p =>
    obtain ⟨s3, hits'⟩ := p
    rw [hrec] at h
    rw [Except.ok.injEq, Prod.mk.injEq] at h
    obtain ⟨h1, h2⟩ := h
    subst h1
    refine ⟨_, hits', h2.symm, ?_, hrec⟩
    rfl

/-- Postcondition of the batch probe phase (lines 82-127): the
structural invariant extends to the batch; each row is routed to a FULL
slot holding its key; previously FULL slots are untouched and slots
claimed during the batch start as zeroed records; per slot, the routed
hits are exactly the batch rows of that slot's key, in order, with a
freshly claimed slot receiving first its claiming (new) hit and then
only updated hits. -/
structure ProbePost (cfg : HTConfig K) (s : HTState K) (H rows : List (Row K))
    (s1 : HTState K) (hits : List (Hit K)) : Prop where
  keyInv : KeyInv cfg s1 (H ++ rows)
  rowsEq : hits.map Hit.row = rows
  target : ∀ h ∈ hits, h.slot < cfg.capacity ∧ slotFull s1 h.slot ∧
    (s1.slots h.slot).key = h.row.key
  frameOld : ∀ t, slotFull s t → s1.slots t = s.slots t
  frameNew : ∀ t, ¬ slotFull s t → slotFull s1 t →
    s1.slots t = ⟨true, (s1.slots t).key, List.replicate (nPayload cfg) 0, 0⟩
  frameStay : ∀ t, ¬ slotFull s t → ¬ slotFull s1 t → s1.slots t = s.slots t
  mono : ∀ t, slotFull s t → slotFull s1 t
  atSlot : ∀ t, t < cfg.capacity → slotFull s1 t →
    (hitsAt t hits).map Hit.row = rowsFor (s1.slots t).key rows
  oldUpd : ∀ t, slotFull s t → ∀ h ∈ hitsAt t hits, h.isNew = false
  newDecomp : ∀ t, ¬ slotFull s t → slotFull s1 t →
    ∃ h0 rest, hitsAt t hits = h0 :: rest ∧ h0.isNew = true ∧
      ∀ h ∈ rest, h.isNew = false
  keyNewFresh : ∀ t, ¬ slotFull s t → slotFull s1 t →
    (s1.slots t).key ∉ H.map Row.key

theorem probeRows_post (cfg : HTConfig K) :
    ∀ (rows : List (Row K)) (s : HTState K) (H : List (Row K)) (i0 : Nat)
      (s1 : HTState K) (hits : List (Hit K)),
      KeyInv cfg s H → probeRows cfg s i0 rows = .ok (s1, hits) →
      ProbePost cfg s H rows s1 hits := by
  intro rows
  induction rows with
  | nil =>
    intro s H i0 s1 hits kinv h
    obtain ⟨rfl, rfl⟩ := probeRows_nil_ok cfg h
    refine ⟨?_, rfl, ?_, ?_, ?_, ?_, ?_, ?_, ?_, ?_, ?_⟩
    · rw [List.append_nil]; exact kinv
    · intro h hm; cases hm
    · intro t _; rfl
    · intro t hn hf; exact absurd hf hn
    · intro t _ _; rfl
    · intro t hf; exact hf
    · intro t _ _; simp [hitsAt, rowsFor]
    · intro t _ h hm; exact absurd hm (List.not_mem_nil h)
    · intro t hn hf; exact absurd hf hn
    · intro t hn hf; exact absurd hf hn
  | cons r rs ih =>
    intro s H i0 s1 hits kinv h
    cases hpf : probeFrom cfg s r.key (cfg.hash r.key % cfg.capacity) with
    | none =>
      rw [probeRows] at h
      simp only [hpf] at h
      cases h
    | some hit =>
      cases hit with
      | claimed t =>
        obtain ⟨s2, hits', rfl, hs2, hrec⟩ := probeRows_cons_claimed_ok cfg hpf h
        obtain ⟨hst, htc, hte, hmid⟩ :=
          probeFrom_claimed_spec cfg s r.key _ t hpf
        have hnp := claimed_not_present kinv hpf
        have kinv2 : KeyInv cfg s2 (H ++ [r]) :=
          keyInv_slots_congr hs2 (keyInv_claim kinv hpf)
        have hslot2_t : s2.slots t = ⟨true, r.key, List.replicate (nPayload cfg) 0, 0⟩ := by
          rw [hs2]; simp [claimSlot, setSlot]
        have hslot2_ne : ∀ u, u ≠ t → s2.slots u = s.slots u := by
          intro u hu
          rw [hs2]; simp [claimSlot, setSlot, hu]
        have hfull2_t : slotFull s2 t := by simp [slotFull, hslot2_t]
        have hfull2_iff : ∀ u, u ≠ t → (slotFull s2 u ↔ slotFull s u) := by
          intro u hu
          simp [slotFull, hslot2_ne u hu]
        have PP := ih s2 (H ++ [r]) (i0 + 1) s1 hits' kinv2 hrec
        have hful3_t : slotFull s1 t := PP.mono t hfull2_t
        have hkey3_t : (s1.slots t).key = r.key := by
          rw [PP.frameOld t hfull2_t, hslot2_t]
        refine ⟨?_, ?_, ?_, ?_, ?_, ?_, ?_, ?_, ?_, ?_, ?_⟩
        · have hk := PP.keyInv
          rw [List.append_assoc, List.singleton_append] at hk
          exact hk
        · simp only [List.map_cons, PP.rowsEq]
        · intro h hm
          rcases List.mem_cons.mp hm with rfl | hm'
          · exact ⟨htc, hful3_t, hkey3_t⟩
          · exact PP.target h hm'
        · intro u hfu
          have hut : u ≠ t := by rintro rfl; exact hte hfu
          rw [PP.frameOld u ((hfull2_iff u hut).mpr hfu), hslot2_ne u hut]
        · intro u hnu hfu1
          by_cases hut : u = t
          · have e1 : s1.slots t = s2.slots t := PP.frameOld t hfull2_t
            rw [hut, e1, hslot2_t]
          · exact PP.frameNew u (fun h2 => hnu ((hfull2_iff u hut).mp h2)) hfu1
        · intro u hnu hn1
          have hut : u ≠ t := by rintro rfl; exact hn1 hful3_t
          rw [PP.frameStay u (fun h2 => hnu ((hfull2_iff u hut).mp h2)) hn1,
            hslot2_ne u hut]
        · intro u hfu
          have hut : u ≠ t := by rintro rfl; exact hte hfu
          exact PP.mono u ((hfull2_iff u hut).mpr hfu)
        · intro u hu hfu1
          have hcons : hitsAt u ((⟨i0, t, r, true⟩ : Hit K) :: hits') =
              if t = u then (⟨i0, t, r, true⟩ : Hit K) :: hitsAt u hits'
              else hitsAt u hits' := hitsAt_cons u _ hits'
          rw [hcons, rowsFor_cons]
          by_cases hut : t = u
          · rw [if_pos hut]
            have hkk : r.key = (s1.slots u).key := by rw [← hut, hkey3_t]
            rw [if_pos hkk]
            have ha := PP.atSlot u hu hfu1
            simp only [List.map_cons, ha]
          · rw [if_neg hut]
            have hkk : ¬ (r.key = (s1.slots u).key) := by
              intro he
              exact hut (PP.keyInv.inj t u htc hu hful3_t hfu1 (by rw [hkey3_t, he]))
            rw [if_neg hkk]
            exact PP.atSlot u hu hfu1
        · intro u hfu h hm
          have hut : t ≠ u := by rintro rfl; exact hte hfu
          have hcons : hitsAt u ((⟨i0, t, r, true⟩ : Hit K) :: hits') =
              if t = u then (⟨i0, t, r, true⟩ : Hit K) :: hitsAt u hits'
              else hitsAt u hits' := hitsAt_cons u _ hits'
          rw [hcons, if_neg hut] at hm
          exact PP.oldUpd u ((hfull2_iff u (fun he => hut he.symm)).mpr hfu) h hm
        · intro u hnu hfu1
          have hcons : hitsAt u ((⟨i0, t, r, true⟩ : Hit K) :: hits') =
              if t = u then (⟨i0, t, r, true⟩ : Hit K) :: hitsAt u hits'
              else hitsAt u hits' := hitsAt_cons u _ hits'
          by_cases hut : t = u
          · refine ⟨⟨i0, t, r, true⟩, hitsAt u hits', ?_, rfl, ?_⟩
            · rw [hcons, if_pos hut]
            · intro h hm
              exact PP.oldUpd u (hut ▸ hfull2_t) h hm
          · have h2 : ¬ slotFull s2 u :=
              fun hf2 => hnu ((hfull2_iff u (fun he => hut he.symm)).mp hf2)
            obtain ⟨h0, rest, he, hn, hr⟩ := PP.newDecomp u h2 hfu1
            exact ⟨h0, rest, by rw [hcons, if_neg hut]; exact he, hn, hr⟩
        · intro u hnu hfu1
          by_cases hut : t = u
          · have hk : (s1.slots u).key = r.key := by rw [← hut]; exact hkey3_t
            rw [hk]
            intro hmem
            obtain ⟨r', hr', hkr⟩ := List.mem_map.mp hmem
            obtain ⟨w, hw, fw, hkw⟩ := kinv.complete r' hr'
            exact hnp w hw fw (by rw [hkw, hkr])
          · have h2 : ¬ slotFull s2 u :=
              fun hf2 => hnu ((hfull2_iff u (fun he => hut he.symm)).mp hf2)
            have hni := PP.keyNewFresh u h2 hfu1
            intro hmem
            exact hni (by
              simp only [List.map_append, List.mem_append]
              exact Or.inl hmem)
      | matched t =>
        obtain ⟨s2, hits', rfl, hs2, hrec⟩ := probeRows_cons_matched_ok cfg hpf h
        obtain ⟨hst, htc, htf, htk, hmid⟩ :=
          probeFrom_matched_spec cfg s r.key _ t hpf
        have kinv2 : KeyInv cfg s2 (H ++ [r]) :=
          keyInv_slots_congr hs2 (keyInv_matched kinv hpf)
        have hslot2 : ∀ u, s2.slots u = s.slots u := fun u => congrFun hs2 u
        have hfull2 : ∀ u, slotFull s2 u ↔ slotFull s u := by
          intro u
          simp [slotFull, hslot2 u]
        have PP := ih s2 (H ++ [r]) (i0 + 1) s1 hits' kinv2 hrec
        have hful3_t : slotFull s1 t := PP.mono t ((hfull2 t).mpr htf)
        have hkey3_t : (s1.slots t).key = r.key := by
          rw [PP.frameOld t ((hfull2 t).mpr htf), hslot2 t, htk]
        refine ⟨?_, ?_, ?_, ?_, ?_, ?_, ?_, ?_, ?_, ?_, ?_⟩
        · have hk := PP.keyInv
          rw [List.append_assoc, List.singleton_append] at hk
          exact hk
        · simp only [List.map_cons, PP.rowsEq]
        · intro h hm
          rcases List.mem_cons.mp hm with rfl | hm'
          · exact ⟨htc, hful3_t, hkey3_t⟩
          · exact PP.target h hm'
        · intro u hfu
          rw [PP.frameOld u ((hfull2 u).mpr hfu), hslot2 u]
        · intro u hnu hfu1
          exact PP.frameNew u (fun h2 => hnu ((hfull2 u).mp h2)) hfu1
        · intro u hnu hn1
          rw [PP.frameStay u (fun h2 => hnu ((hfull2 u).mp h2)) hn1, hslot2 u]
        · intro u hfu
          exact PP.mono u ((hfull2 u).mpr hfu)
        · intro u hu hfu1
          have hcons : hitsAt u ((⟨i0, t, r, false⟩ : Hit K) :: hits') =
              if t = u then (⟨i0, t, r, false⟩ : Hit K) :: hitsAt u hits'
              else hitsAt u hits' := hitsAt_cons u _ hits'
          rw [hcons, rowsFor_cons]
          by_cases hut : t = u
          · rw [if_pos hut]
            have hkk : r.key = (s1.slots u).key := by rw [← hut, hkey3_t]
            rw [if_pos hkk]
            have ha := PP.atSlot u hu hfu1
            simp only [List.map_cons, ha]
          · rw [if_neg hut]
            have hkk : ¬ (r.key = (s1.slots u).key) := by
              intro he
              exact hut (PP.keyInv.inj t u htc hu hful3_t hfu1 (by rw [hkey3_t, he]))
            rw [if_neg hkk]
            exact PP.atSlot u hu hfu1
        · intro u hfu h hm
          have hcons : hitsAt u ((⟨i0, t, r, false⟩ : Hit K) :: hits') =
              if t = u then (⟨i0, t, r, false⟩ : Hit K) :: hitsAt u hits'
              else hitsAt u hits' := hitsAt_cons u _ hits'
          by_cases hut : t = u
          · rw [hcons, if_pos hut] at hm
            rcases List.mem_cons.mp hm with rfl | hm'
            · rfl
            · exact PP.oldUpd u ((hfull2 u).mpr hfu) h hm'
          · rw [hcons, if_neg hut] at hm
            exact PP.oldUpd u ((hfull2 u).mpr hfu) h hm
        · intro u hnu hfu1
          have hut : t ≠ u := by rintro rfl; exact hnu htf
          have hcons : hitsAt u ((⟨i0, t, r, false⟩ : Hit K) :: hits') =
              if t = u then (⟨i0, t, r, false⟩ : Hit K) :: hitsAt u hits'
              else hitsAt u hits' := hitsAt_cons u _ hits'
          have h2 : ¬ slotFull s2 u := fun hf2 => hnu ((hfull2 u).mp hf2)
          obtain ⟨h0, rest, he, hn, hr⟩ := PP.newDecomp u h2 hfu1
          exact ⟨h0, rest, by rw [hcons, if_neg hut]; exact he, hn, hr⟩
        · intro u hnu hfu1
          have h2 : ¬ slotFull s2 u := fun hf2 => hnu ((hfull2 u).mp hf2)
          have hni := PP.keyNewFresh u h2 hfu1
          intro hmem
          exact hni (by
            simp only [List.map_append, List.mem_append]
            exact Or.inl hmem)

/-! ### Frame and fold lemmas for the aggregate-update phase -/

theorem modifyAcc_slots_ne (s : HTState K) (t j : Nat) (g : Int → Int)
    (u : Nat) (h : u ≠ t) : (modifyAcc s t j g).slots u = s.slots u := by
  simp [modifyAcc, setSlot, h]

theorem modifyAcc_slots_self (s : HTState K) (t j : Nat) (g : Int → Int) :
    (modifyAcc s t j g).slots t =
      { s.slots t with acc := (s.slots t).acc.set j (g ((s.slots t).acc.getD j 0)) } := by
  simp [modifyAcc, setSlot]

theorem modifyAcc_flag (s : HTState K) (t j : Nat) (g : Int → Int) (u : Nat) :
    ((modifyAcc s t j g).slots u).flag = (s.slots u).flag := by
  by_cases hu : u = t
  · subst hu; rw [modifyAcc_slots_self]
  · rw [modifyAcc_slots_ne s t j g u hu]

theorem modifyAcc_key (s : HTState K) (t j : Nat) (g : Int → Int) (u : Nat) :
    ((modifyAcc s t j g).slots u).key = (s.slots u).key := by
  by_cases hu : u = t
  · subst hu; rw [modifyAcc_slots_self]
  · rw [modifyAcc_slots_ne s t j g u hu]

theorem modifyAcc_count (s : HTState K) (t j : Nat) (g : Int → Int) (u : Nat) :
    ((modifyAcc s t j g).slots u).count = (s.slots u).count := by
  by_cases hu : u = t
  · subst hu; rw [modifyAcc_slots_self]
  · rw [modifyAcc_slots_ne s t j g u hu]

theorem modifyAcc_accLen (s : HTState K) (t j : Nat) (g : Int → Int) (u : Nat) :
    ((modifyAcc s t j g).slots u).acc.length = (s.slots u).acc.length := by
  by_cases hu : u = t
  · subst hu; rw [modifyAcc_slots_self]; exact List.length_set _ _ _
  · rw [modifyAcc_slots_ne s t j g u hu]

theorem modifyAcc_getD_ne (s : HTState K) (t j : Nat) (g : Int → Int)
    (u j' : Nat) (h : j' ≠ j) :
    ((modifyAcc s t j g).slots u).acc.getD j' 0 = (s.slots u).acc.getD j' 0 := by
  by_cases hu : u = t
  · subst hu; rw [modifyAcc_slots_self]; exact getD_set_ne _ _ _ _ h
  · rw [modifyAcc_slots_ne s t j g u hu]

theorem modifyAcc_getD_self (s : HTState K) (t j : Nat) (g : Int → Int)
    (h : j < (s.slots t).acc.length) :
    ((modifyAcc s t j g).slots t).acc.getD j 0 = g ((s.slots t).acc.getD j 0) := by
  rw [modifyAcc_slots_self]
  exact getD_set_self _ _ _ h

theorem scatterSel_flag (j : Nat) (f : Int → Int → Int) :
    ∀ (sel : List (Hit K)) (s : HTState K) (u : Nat),
      ((scatterSel j f sel s).slots u).flag = (s.slots u).flag
  | [], _, _ => rfl
  | h :: hs, s, u => by
    rw [scatterSel, scatterSel_flag j f hs _ u, modifyAcc_flag]

theorem scatterSel_key (j : Nat) (f : Int → Int → Int) :
    ∀ (sel : List (Hit K)) (s : HTState K) (u : Nat),
      ((scatterSel j f sel s).slots u).key = (s.slots u).key
  | [], _, _ => rfl
  | h :: hs, s, u => by
    rw [scatterSel, scatterSel_key j f hs _ u, modifyAcc_key]

theorem scatterSel_count (j : Nat) (f : Int → Int → Int) :
    ∀ (sel : List (Hit K)) (s : HTState K) (u : Nat),
      ((scatterSel j f sel s).slots u).count = (s.slots u).count
  | [], _, _ => rfl
  | h :: hs, s, u => by
    rw [scatterSel, scatterSel_count j f hs _ u, modifyAcc_count]

theorem scatterSel_accLen (j : Nat) (f : Int → Int → Int) :
    ∀ (sel : List (Hit K)) (s : HTState K) (u : Nat),
      ((scatterSel j f sel s).slots u).acc.length = (s.slots u).acc.length
  | [], _, _ => rfl
  | h :: hs, s, u => by
    rw [scatterSel, scatterSel_accLen j f hs _ u, modifyAcc_accLen]

theorem scatterSel_getD_ne (j : Nat) (f : Int → Int → Int) (j' : Nat)
    (hj : j' ≠ j) :
    ∀ (sel : List (Hit K)) (s : HTState K) (u : Nat),
      ((scatterSel j f sel s).slots u).acc.getD j' 0 = (s.slots u).acc.getD j' 0
  | [], _, _ => rfl
  | h :: hs, s, u => by
    rw [scatterSel, scatterSel_getD_ne j f j' hj hs _ u, modifyAcc_getD_ne]
    exact hj

theorem scatterSel_getD (j : Nat) (f : Int → Int → Int) :
    ∀ (sel : List (Hit K)) (s : HTState K) (u : Nat),
      j < (s.slots u).acc.length →
      ((scatterSel j f sel s).slots u).acc.getD j 0 =
        ((hitsAt u sel).map (fun h => h.row.vals.getD j 0)).foldl f
          ((s.slots u).acc.getD j 0)
  | [], _, _, _ => rfl
  | h :: hs, s, u, hlen => by
    rw [scatterSel]
    have hcons : hitsAt u (h :: hs) =
        if h.slot = u then h :: hitsAt u hs else hitsAt u hs := hitsAt_cons u h hs
    by_cases ht : h.slot = u
    · rw [hcons, if_pos ht]
      have hlen2 : j < ((modifyAcc s h.slot j
          (fun old => f old (h.row.vals.getD j 0))).slots u).acc.length := by
        rw [modifyAcc_accLen]; exact hlen
      rw [scatterSel_getD j f hs _ u hlen2]
      rw [List.map_cons, List.foldl_cons]
      subst ht
      rw [modifyAcc_getD_self s h.slot j _ hlen]
    · rw [hcons, if_neg ht]
      have hlen2 : j < ((modifyAcc s h.slot j
          (fun old => f old (h.row.vals.getD j 0))).slots u).acc.length := by
        rw [modifyAcc_accLen]; exact hlen
      rw [scatterSel_getD j f hs _ u hlen2]
      rw [modifyAcc_slots_ne s h.slot j _ u (fun he => ht he.symm)]

theorem aggLoop_flag (newSel updSel : List (Hit K)) :
    ∀ (as : List AggType) (j : Nat) (s : HTState K) (u : Nat),
      ((aggLoop newSel updSel as j s).slots u).flag = (s.slots u).flag := by
  intro as
  induction as with
  | nil => intro j s u; rfl
  | cons a as iha =>
    intro j s u
    cases a <;>
      simp only [aggLoop] <;>
      rw [iha] <;>
      rw [scatterSel_flag, scatterSel_flag]

theorem aggLoop_key (newSel updSel : List (Hit K)) :
    ∀ (as : List AggType) (j : Nat) (s : HTState K) (u : Nat),
      ((aggLoop newSel updSel as j s).slots u).key = (s.slots u).key := by
  intro as
  induction as with
  | nil => intro j s u; rfl
  | cons a as iha =>
    intro j s u
    cases a <;>
      simp only [aggLoop] <;>
      rw [iha] <;>
      rw [scatterSel_key, scatterSel_key]

theorem aggLoop_count (newSel updSel : List (Hit K)) :
    ∀ (as : List AggType) (j : Nat) (s : HTState K) (u : Nat),
      ((aggLoop newSel updSel as j s).slots u).count = (s.slots u).count := by
  intro as
  induction as with
  | nil => intro j s u; rfl
  | cons a as iha =>
    intro j s u
    cases a <;>
      simp only [aggLoop] <;>
      rw [iha] <;>
      rw [scatterSel_count, scatterSel_count]

theorem aggLoop_accLen (newSel updSel : List (Hit K)) :
    ∀ (as : List AggType) (j : Nat) (s : HTState K) (u : Nat),
      ((aggLoop newSel updSel as j s).slots u).acc.length = (s.slots u).acc.length := by
  intro as
  induction as with
  | nil => intro j s u; rfl
  | cons a as iha =>
    intro j s u
    cases a <;>
      simp only [aggLoop] <;>
      rw [iha] <;>
      rw [scatterSel_accLen, scatterSel_accLen]

theorem aggLoop_getD_lt (newSel updSel : List (Hit K)) :
    ∀ (as : List AggType) (j : Nat) (s : HTState K) (u : Nat) (j' : Nat),
      j' < j →
      ((aggLoop newSel updSel as j s).slots u).acc.getD j' 0 =
        (s.slots u).acc.getD j' 0 := by
  intro as
  induction as with
  | nil => intro j s u j' _; rfl
  | cons a as iha =>
    intro j s u j' hj
    cases a <;> simp only [aggLoop]
    case countStar => exact iha j s u j' hj
    all_goals
      rw [iha (j + 1) _ u j' (by omega)]
    all_goals
      rw [scatterSel_getD_ne _ _ j' (by omega), scatterSel_getD_ne _ _ j' (by omega)]

/-- Per-component effect of the aggregate-update loop: accumulator
`j + dj` of any slot `u` is the `dj`-th non-COUNT_STAR aggregate's
initial-set fold over the new hits routed to `u` followed by its update
fold over the updated hits routed to `u`. -/
theorem aggLoop_getD_spec (newSel updSel : List (Hit K)) :
    ∀ (as : List AggType) (j : Nat) (s : HTState K) (u : Nat) (dj : Nat),
      dj < (as.filter (fun a => decide (a ≠ AggType.countStar))).length →
      j + dj < (s.slots u).acc.length →
      ((aggLoop newSel updSel as j s).slots u).acc.getD (j + dj) 0 =
        ((hitsAt u updSel).map (fun h => h.row.vals.getD (j + dj) 0)).foldl
          (aggStep ((as.filter (fun a => decide (a ≠ AggType.countStar))).getD dj
            .countStar))
          (((hitsAt u newSel).map (fun h => h.row.vals.getD (j + dj) 0)).foldl
            (fun old v => aggInit ((as.filter (fun a => decide (a ≠ AggType.countStar))).getD dj
              .countStar) v)
            ((s.slots u).acc.getD (j + dj) 0)) := by
  intro as
  induction as with
  | nil =>
    intro j s u dj hdj _
    simp at hdj
  | cons a as iha =>
    intro j s u dj hdj hlen
    by_cases hstar : a = AggType.countStar
    · subst hstar
      have hfilt : (AggType.countStar :: as).filter
          (fun a => decide (a ≠ AggType.countStar)) =
          as.filter (fun a => decide (a ≠ AggType.countStar)) := by
        simp [List.filter_cons]
      rw [hfilt] at hdj ⊢
      simp only [aggLoop]
      exact iha j s u dj hdj hlen
    · have hfilt : (a :: as).filter (fun a => decide (a ≠ AggType.countStar)) =
          a :: as.filter (fun a => decide (a ≠ AggType.countStar)) := by
        simp [List.filter_cons, hstar]
      rw [hfilt] at hdj ⊢
      have hloop : aggLoop newSel updSel (a :: as) j s =
          aggLoop newSel updSel as (j + 1)
            (scatterSel j (aggStep a) updSel
              (scatterSel j (fun _ v => aggInit a v) newSel s)) := by
        cases a <;> first | rfl | exact absurd rfl hstar
      rw [hloop]
      cases dj with
      | zero =>
        simp only [List.getD_cons_zero, Nat.add_zero] at *
        rw [aggLoop_getD_lt newSel updSel as (j + 1) _ u j (by omega)]
        have hlen1 : j < ((scatterSel j (fun _ v => aggInit a v) newSel s).slots u).acc.length := by
          rw [scatterSel_accLen]; exact hlen
        rw [scatterSel_getD j (aggStep a) updSel _ u hlen1]
        rw [scatterSel_getD j (fun _ v => aggInit a v) newSel s u hlen]
      | succ d =>
        have hd : d < (as.filter (fun a => decide (a ≠ AggType.countStar))).length := by
          simpa using hdj
        have hje : j + (d + 1) = (j + 1) + d := by omega
        rw [hje]
        have hlen2 : (j + 1) + d <
            ((scatterSel j (aggStep a) updSel
              (scatterSel j (fun _ v => aggInit a v) newSel s)).slots u).acc.length := by
          rw [scatterSel_accLen, scatterSel_accLen]; omega
        rw [iha (j + 1) _ u d hd hlen2]
        have hne : (j + 1) + d ≠ j := by omega
        rw [scatterSel_getD_ne _ _ _ hne, scatterSel_getD_ne _ _ _ hne]
        simp only [List.getD_cons_succ]

theorem bumpCount_flag (s : HTState K) (t u : Nat) :
    ((bumpCount s t).slots u).flag = (s.slots u).flag := by
  by_cases hu : u = t
  · subst hu; simp [bumpCount, setSlot]
  · simp [bumpCount, setSlot, hu]

theorem bumpCount_key (s : HTState K) (t u : Nat) :
    ((bumpCount s t).slots u).key = (s.slots u).key := by
  by_cases hu : u = t
  · subst hu; simp [bumpCount, setSlot]
  · simp [bumpCount, setSlot, hu]

theorem bumpCount_acc (s : HTState K) (t u : Nat) :
    ((bumpCount s t).slots u).acc = (s.slots u).acc := by
  by_cases hu : u = t
  · subst hu; simp [bumpCount, setSlot]
  · simp [bumpCount, setSlot, hu]

theorem bumpCount_count (s : HTState K) (t u : Nat) :
    ((bumpCount s t).slots u).count =
      (s.slots u).count + (if t = u then 1 else 0) := by
  by_cases hu : u = t
  · subst hu; simp [bumpCount, setSlot]
  · have ht : ¬ t = u := fun he => hu he.symm
    simp [bumpCount, setSlot, hu, ht]

theorem addOneCounts_flag :
    ∀ (hs : List (Hit K)) (s : HTState K) (u : Nat),
      ((addOneCounts hs s).slots u).flag = (s.slots u).flag
  | [], _, _ => rfl
  | h :: hs, s, u => by
    rw [addOneCounts, addOneCounts_flag hs _ u, bumpCount_flag]

theorem addOneCounts_key :
    ∀ (hs : List (Hit K)) (s : HTState K) (u : Nat),
      ((addOneCounts hs s).slots u).key = (s.slots u).key
  | [], _, _ => rfl
  | h :: hs, s, u => by
    rw [addOneCounts, addOneCounts_key hs _ u, bumpCount_key]

theorem addOneCounts_acc :
    ∀ (hs : List (Hit K)) (s : HTState K) (u : Nat),
      ((addOneCounts hs s).slots u).acc = (s.slots u).acc
  | [], _, _ => rfl
  | h :: hs, s, u => by
    rw [addOneCounts, addOneCounts_acc hs _ u, bumpCount_acc]

theorem addOneCounts_count :
    ∀ (hs : List (Hit K)) (s : HTState K) (u : Nat),
      ((addOneCounts hs s).slots u).count =
        (s.slots u).count + (hitsAt u hs).length
  | [], s, u => by simp [addOneCounts, hitsAt]
  | h :: hs, s, u => by
    rw [addOneCounts, addOneCounts_count hs _ u, bumpCount_count]
    have hcons : hitsAt u (h :: hs) =
        if h.slot = u then h :: hitsAt u hs else hitsAt u hs := hitsAt_cons u h hs
    rw [hcons]
    by_cases ht : h.slot = u
    · rw [if_pos ht, if_pos ht]
      simp [Nat.add_comm, Nat.add_assoc, Nat.add_left_comm]
    · rw [if_neg ht, if_neg ht]
      simp

/-! ### The ingest step preserves the full invariant -/

theorem keyInv_congr2 {cfg : HTConfig K} {s s' : HTState K} {M : List (Row K)}
    (hflag : ∀ u, (s'.slots u).flag = (s.slots u).flag)
    (hkey : ∀ u, (s'.slots u).key = (s.slots u).key)
    (kinv : KeyInv cfg s M) : KeyInv cfg s' M := by
  have hfull : ∀ u, slotFull s' u ↔ slotFull s u := by
    intro u; simp [slotFull, hflag u]
  refine ⟨?_, ?_, ?_, ?_⟩
  · intro i j hi hj fi fj hk
    exact kinv.inj i j hi hj ((hfull i).mp fi) ((hfull j).mp fj)
      (by rw [← hkey i, ← hkey j]; exact hk)
  · intro i hi fi
    rw [hkey i]
    exact kinv.sound i hi ((hfull i).mp fi)
  · intro r hr
    obtain ⟨i, hi, fi, hk⟩ := kinv.complete r hr
    exact ⟨i, hi, (hfull i).mpr fi, by rw [hkey i]; exact hk⟩
  · intro i hi fi
    rw [hkey i]
    obtain ⟨h1, h2⟩ := kinv.path i hi ((hfull i).mp fi)
    exact ⟨h1, fun m hm1 hm2 => (hfull m).mpr (h2 m hm1 hm2)⟩

theorem filter_swap {α : Type} (p q : α → Bool) (l : List α) :
    (l.filter p).filter q = (l.filter q).filter p := by
  rw [List.filter_filter, List.filter_filter]
  apply List.filter_congr
  intro a _
  rw [Bool.and_comm]

theorem addChunk_ok_elim (cfg : HTConfig K) {s : HTState K}
    {rows : List (Row K)} {s' : HTState K} (h : addChunk cfg s rows = .ok s') :
    (rows = [] ∧ s' = s) ∨
      ∃ s1 hits, probeRows cfg s 0 rows = .ok (s1, hits) ∧
        s' = addOneCounts hits
          (aggLoop (hits.filter (fun h => h.isNew))
            (hits.filter (fun h => !h.isNew)) cfg.aggTypes 0 s1) := by
  unfold addChunk at h
  by_cases he : rows.isEmpty
  · rw [if_pos he] at h
    refine Or.inl ⟨List.isEmpty_iff.mp he, ?_⟩
    injection h with h'
    exact h'.symm
  · rw [if_neg he] at h
    by_cases hp : cfg.parallel
    · rw [if_pos hp] at h; cases h
    · rw [if_neg hp] at h
      cases hpr : probeRows cfg s 0 rows with
      | error e => rw [hpr] at h; cases h
      | ok p =>
        obtain ⟨s1, hits⟩ := p
        rw [hpr] at h
        injection h with h'
        exact Or.inr ⟨s1, hits, rfl, h'.symm⟩

theorem tableInv_addChunk (cfg : HTConfig K) {s : HTState K}
    {H rows : List (Row K)} {s' : HTState K} (inv : TableInv cfg s H)
    (h : addChunk cfg s rows = .ok s') : TableInv cfg s' (H ++ rows) := by
  rcases addChunk_ok_elim cfg h with ⟨rfl, rfl⟩ | ⟨s1, hits, hpr, heq⟩
  · rw [List.append_nil]; exact inv
  · have PP := probeRows_post cfg rows s H 0 s1 hits inv.toKeyInv hpr
    have hFlag : ∀ u, (s'.slots u).flag = (s1.slots u).flag := by
      intro u
      rw [heq, addOneCounts_flag, aggLoop_flag]
    have hKey : ∀ u, (s'.slots u).key = (s1.slots u).key := by
      intro u
      rw [heq, addOneCounts_key, aggLoop_key]
    have hFull : ∀ u, slotFull s' u ↔ slotFull s1 u := by
      intro u; simp [slotFull, hFlag u]
    have hCount : ∀ u, (s'.slots u).count =
        (s1.slots u).count + (hitsAt u hits).length := by
      intro u
      rw [heq, addOneCounts_count, aggLoop_count]
    have hLen : ∀ u, (s'.slots u).acc.length = (s1.slots u).acc.length := by
      intro u
      rw [heq, addOneCounts_acc, aggLoop_accLen]
    have hLen1 : ∀ u, u < cfg.capacity → slotFull s1 u →
        (s1.slots u).acc.length = nPayload cfg := by
      intro u hu hfu
      by_cases hold : slotFull s u
      · rw [PP.frameOld u hold]; exact inv.accLen u hu hold
      · rw [PP.frameNew u hold hfu]
        exact List.length_replicate _ _
    refine ⟨keyInv_congr2 hFlag hKey PP.keyInv, ?_, ?_, ?_⟩
    · intro u hu hfu'
      have hfu1 : slotFull s1 u := (hFull u).mp hfu'
      have hlenHits : (hitsAt u hits).length =
          (rowsFor ((s1.slots u).key) rows).length := by
        rw [← PP.atSlot u hu hfu1, List.length_map]
      rw [hCount u, hKey u, rowsFor_append, List.length_append, hlenHits]
      congr 1
      by_cases hold : slotFull s u
      · rw [PP.frameOld u hold]
        exact inv.counts u hu hold
      · have hc0 : (s1.slots u).count = 0 := by
          rw [PP.frameNew u hold hfu1]
        rw [hc0, rowsFor_nil_of_not_mem (PP.keyNewFresh u hold hfu1)]
        rfl
    · intro u hu hfu'
      rw [hLen u]
      exact hLen1 u hu ((hFull u).mp hfu')
    · intro u hu hfu' j hj
      have hfu1 : slotFull s1 u := (hFull u).mp hfu'
      have hjlen : 0 + j < (s1.slots u).acc.length := by
        rw [hLen1 u hu hfu1]; omega
      have hdj : j < (cfg.aggTypes.filter
          (fun a => decide (a ≠ AggType.countStar))).length := hj
      have hacc' : (s'.slots u).acc.getD j 0 =
          ((aggLoop (hits.filter (fun h => h.isNew))
            (hits.filter (fun h => !h.isNew)) cfg.aggTypes 0 s1).slots u).acc.getD j 0 := by
        rw [heq, addOneCounts_acc]
      simp only [nonStarAggs]
      have hspec := aggLoop_getD_spec (hits.filter (fun h => h.isNew))
        (hits.filter (fun h => !h.isNew)) cfg.aggTypes 0 s1 u j hdj hjlen
      simp only [Nat.zero_add] at hspec
      have hnf : hitsAt u (hits.filter (fun h => h.isNew)) =
          (hitsAt u hits).filter (fun h => h.isNew) :=
        filter_swap _ _ hits
      have huf : hitsAt u (hits.filter (fun h => !h.isNew)) =
          (hitsAt u hits).filter (fun h => !h.isNew) :=
        filter_swap _ _ hits
      rw [hnf, huf] at hspec
      set a := (cfg.aggTypes.filter
        (fun a => decide (a ≠ AggType.countStar))).getD j AggType.countStar with ha
      have hmapmap : ∀ (l : List (Hit K)),
          l.map (fun h => h.row.vals.getD j 0) =
            (l.map Hit.row).map (fun r => r.vals.getD j 0) := by
        intro l
        rw [List.map_map]
        rfl
      rw [hacc', hspec, hKey u]
      by_cases hold : slotFull s u
      · have hallold := PP.oldUpd u hold
        have hnfe : (hitsAt u hits).filter (fun h => h.isNew) = [] := by
          rw [List.filter_eq_nil_iff]
          intro h hm
          rw [hallold h hm]
          simp
        have hufe : (hitsAt u hits).filter (fun h => !h.isNew) = hitsAt u hits :=
          List.filter_eq_self.mpr (fun h hm => by rw [hallold h hm]; rfl)
        rw [hnfe, hufe]
        simp only [List.map_nil, List.foldl_nil]
        have hbase : (s1.slots u).acc.getD j 0 =
            aggValue a ((rowsFor ((s1.slots u).key) H).map
              (fun r => r.vals.getD j 0)) := by
          rw [PP.frameOld u hold]
          exact inv.accs u hu hold j hj
        have hxs : (rowsFor ((s1.slots u).key) H).map
            (fun r => r.vals.getD j 0) ≠ [] := by
          have hne := rowsFor_ne_nil_of_mem (K := K)
            (H := H) (k := (s1.slots u).key)
            (by rw [PP.frameOld u hold]
                exact inv.sound u hu hold)
          intro hc
          rw [List.map_eq_nil_iff] at hc
          exact hne hc
        rw [hbase, rowsFor_append, List.map_append,
          aggValue_append a _ _ hxs]
        congr 1
        rw [hmapmap, PP.atSlot u hu hfu1]
      · obtain ⟨h0, rest, hdec, h0new, hrest⟩ := PP.newDecomp u hold hfu1
        have hrest_nil : rest.filter (fun h => h.isNew) = [] := by
          rw [List.filter_eq_nil_iff]
          intro h hm
          rw [hrest h hm]
          simp
        have hnfv : (hitsAt u hits).filter (fun h => h.isNew) = [h0] := by
          rw [hdec, List.filter_cons, if_pos (by rw [h0new]), hrest_nil]
        have hufv : (hitsAt u hits).filter (fun h => !h.isNew) = rest := by
          rw [hdec, List.filter_cons, if_neg (by rw [h0new]; simp)]
          exact List.filter_eq_self.mpr (fun h hm => by rw [hrest h hm]; rfl)
        have hbase : (s1.slots u).acc.getD j 0 = 0 := by
          rw [PP.frameNew u hold hfu1]
          exact getD_replicate_zero _ _
        have hH0 : rowsFor ((s1.slots u).key) H = [] :=
          rowsFor_nil_of_not_mem (PP.keyNewFresh u hold hfu1)
        rw [hnfv, hufv, hbase, rowsFor_append, hH0]
        simp only [List.nil_append, List.map_cons, List.map_nil,
          List.foldl_cons, List.foldl_nil]
        rw [hmapmap rest]
        have hrows : rowsFor ((s1.slots u).key) rows =
            h0.row :: rest.map Hit.row := by
          rw [← PP.atSlot u hu hfu1, hdec]
          rfl
        rw [hrows]
        simp [aggValue]

theorem ingestAll_inv (cfg : HTConfig K) :
    ∀ (chunks : List (List (Row K))) (s : HTState K) (H : List (Row K))
      (s' : HTState K), TableInv cfg s H → ingestAll cfg s chunks = .ok s' →
      TableInv cfg s' (H ++ chunks.flatten) := by
  intro chunks
  induction chunks with
  | nil =>
    intro s H s' inv h
    simp only [ingestAll, Except.ok.injEq] at h
    subst h
    simpa using inv
  | cons c cs ihc =>
    intro s H s' inv h
    rw [ingestAll] at h
    cases hac : addChunk cfg s c with
    | error e => rw [hac] at h; cases h
    | ok s1 =>
      rw [hac] at h
      have inv1 := tableInv_addChunk cfg inv hac
      have hres := ihc s1 (H ++ c) s' inv1 h
      rw [List.append_assoc] at hres
      exact hres

/-! ### Count conservation across an ingest -/

/-- Sum of the trailing COUNT field over the FULL slots of the table. -/
def sumCounts (cfg : HTConfig K) (s : HTState K) : Nat :=
  ∑ i ∈ Finset.range cfg.capacity, (if slotFull s i then (s.slots i).count else 0)

theorem sumCounts_fresh (cfg : HTConfig K) :
    sumCounts cfg (freshState cfg) = 0 := by
  unfold sumCounts
  apply Finset.sum_eq_zero
  intro i _
  simp [slotFull, freshState]

theorem sumCounts_bump (cfg : HTConfig K) (s : HTState K) (t : Nat)
    (ht : t < cfg.capacity) (hf : slotFull s t) :
    sumCounts cfg (bumpCount s t) = sumCounts cfg s + 1 := by
  unfold sumCounts
  have hterm : ∀ i ∈ Finset.range cfg.capacity,
      (if slotFull (bumpCount s t) i then ((bumpCount s t).slots i).count else 0) =
        (if slotFull s i then (s.slots i).count else 0) +
          (if t = i then 1 else 0) := by
    intro i _
    have hfl : slotFull (bumpCount s t) i ↔ slotFull s i := by
      simp [slotFull, bumpCount_flag]
    by_cases hi : slotFull s i
    · rw [if_pos (hfl.mpr hi), if_pos hi, bumpCount_count]
    · have hti : ¬ t = i := fun he => hi (he ▸ hf)
      rw [if_neg (fun hh => hi (hfl.mp hh)), if_neg hi, if_neg hti]
  rw [Finset.sum_congr rfl hterm, Finset.sum_add_distrib]
  congr 1
  rw [Finset.sum_ite_eq (Finset.range cfg.capacity) t (fun _ => 1)]
  rw [if_pos (Finset.mem_range.mpr ht)]

theorem sumCounts_addOne (cfg : HTConfig K) :
    ∀ (hs : List (Hit K)) (s : HTState K),
      (∀ h ∈ hs, h.slot < cfg.capacity ∧ slotFull s h.slot) →
      sumCounts cfg (addOneCounts hs s) = sumCounts cfg s + hs.length
  | [], s, _ => by simp [addOneCounts]
  | h :: hs, s, htg => by
    rw [addOneCounts]
    have h1 := htg h (List.mem_cons_self h hs)
    have htg2 : ∀ h' ∈ hs, h'.slot < cfg.capacity ∧ slotFull (bumpCount s h.slot) h'.slot := by
      intro h' hm
      obtain ⟨ha, hb⟩ := htg h' (List.mem_cons_of_mem h hm)
      refine ⟨ha, ?_⟩
      simp only [slotFull, bumpCount_flag]
      exact hb
    rw [sumCounts_addOne cfg hs _ htg2, sumCounts_bump cfg s h.slot h1.1 h1.2]
    simp only [List.length_cons]
    omega

theorem sumCounts_addChunk (cfg : HTConfig K) {s : HTState K}
    {H rows : List (Row K)} {s' : HTState K} (inv : TableInv cfg s H)
    (h : addChunk cfg s rows = .ok s') :
    sumCounts cfg s' = sumCounts cfg s + rows.length := by
  rcases addChunk_ok_elim cfg h with ⟨rfl, rfl⟩ | ⟨s1, hits, hpr, heq⟩
  · simp
  · have PP := probeRows_post cfg rows s H 0 s1 hits inv.toKeyInv hpr
    have h1 : sumCounts cfg s1 = sumCounts cfg s := by
      unfold sumCounts
      apply Finset.sum_congr rfl
      intro i _
      by_cases hold : slotFull s i
      · rw [if_pos (PP.mono i hold), if_pos hold, PP.frameOld i hold]
      · by_cases hnew : slotFull s1 i
        · rw [if_pos hnew, if_neg hold]
          rw [PP.frameNew i hold hnew]
        · rw [if_neg hnew, if_neg hold]
    have h2 : sumCounts cfg
        (aggLoop (hits.filter (fun h => h.isNew))
          (hits.filter (fun h => !h.isNew)) cfg.aggTypes 0 s1) = sumCounts cfg s1 := by
      unfold sumCounts
      apply Finset.sum_congr rfl
      intro i _
      have hfl : slotFull (aggLoop (hits.filter (fun h => h.isNew))
          (hits.filter (fun h => !h.isNew)) cfg.aggTypes 0 s1) i ↔ slotFull s1 i := by
        simp [slotFull, aggLoop_flag]
      by_cases hi : slotFull s1 i
      · rw [if_pos (hfl.mpr hi), if_pos hi, aggLoop_count]
      · rw [if_neg (fun hh => hi (hfl.mp hh)), if_neg hi]
    have htg : ∀ h ∈ hits, h.slot < cfg.capacity ∧
        slotFull (aggLoop (hits.filter (fun h => h.isNew))
          (hits.filter (fun h => !h.isNew)) cfg.aggTypes 0 s1) h.slot := by
      intro h hm
      obtain ⟨ha, hb, _⟩ := PP.target h hm
      refine ⟨ha, ?_⟩
      simp only [slotFull, aggLoop_flag]
      exact hb
    have hlenrows : hits.length = rows.length := by
      rw [← PP.rowsEq, List.length_map]
    rw [heq, sumCounts_addOne cfg hits _ htg, h2, h1, hlenrows]

theorem ingestAll_sumCounts (cfg : HTConfig K) :
    ∀ (chunks : List (List (Row K))) (s : HTState K) (H : List (Row K))
      (s' : HTState K), TableInv cfg s H → ingestAll cfg s chunks = .ok s' →
      sumCounts cfg s' = sumCounts cfg s + chunks.flatten.length := by
  intro chunks
  induction chunks with
  | nil =>
    intro s H s' _ h
    simp only [ingestAll, Except.ok.injEq] at h
    subst h
    simp
  | cons c cs ihc =>
    intro s H s' inv h
    rw [ingestAll] at h
    cases hac : addChunk cfg s c with
    | error e => rw [hac] at h; cases h
    | ok s1 =>
      rw [hac] at h
      have inv1 := tableInv_addChunk cfg inv hac
      have hres := ihc s1 (H ++ c) s' inv1 h
      rw [hres, sumCounts_addChunk cfg inv hac]
      simp only [List.flatten_cons, List.length_append]
      omega

/-! ### Claim theorems -/

theorem probeRows_map_row (cfg : HTConfig K) :
    ∀ (rows : List (Row K)) (s : HTState K) (i0 : Nat) (s1 : HTState K)
      (hits : List (Hit K)), probeRows cfg s i0 rows = .ok (s1, hits) →
      hits.map Hit.row = rows := by
  intro rows
  induction rows with
  | nil =>
    intro s i0 s1 hits h
    obtain ⟨-, rfl⟩ := probeRows_nil_ok cfg h
    rfl
  | cons r rs ih =>
    intro s i0 s1 hits h
    cases hpf : probeFrom cfg s r.key (cfg.hash r.key % cfg.capacity) with
    | none =>
      rw [probeRows] at h
      simp only [hpf] at h
      cases h
    | some hit =>
      cases hit with
      | claimed t =>
        obtain ⟨s2, hits', rfl, -, hrec⟩ := probeRows_cons_claimed_ok cfg hpf h
        simp only [List.map_cons, ih s2 (i0 + 1) s1 hits' hrec]
      | matched t =>
        obtain ⟨s2, hits', rfl, -, hrec⟩ := probeRows_cons_matched_ok cfg hpf h
        simp only [List.map_cons, ih s2 (i0 + 1) s1 hits' hrec]

/-- C9 (Parallel ingest rejection): `AddChunk` on a table constructed
with `parallel = true` returns `Unimplemented` for every non-empty input
batch.  In the source the throw (lines 70-72) happens after the pure
hash computation but before the probe loop (line 82) that first writes
slots, `entries` and `max_chain`; the model mirrors this order exactly,
so the error result carries no successor state and the table value is
unchanged.  An empty batch returns normally before the check (line 49),
which is why the claim is restricted to non-empty batches. -/
theorem c9_parallel_unimplemented (cfg : HTConfig K) (s : HTState K)
    (rows : List (Row K)) (hp : cfg.parallel = true) (hne : rows ≠ []) :
    addChunk cfg s rows = .error .parallelUnimplemented := by
  unfold addChunk
  have hie : ¬ (rows.isEmpty = true) := by
    simpa [List.isEmpty_iff] using hne
  rw [if_neg hie, if_pos hp]

/-- Capacity-4 parallel table used by the C9 witness. -/
def cfgPar : HTConfig Nat := ⟨4, 8, 8, [.sum], [8], true, fun k => k⟩

theorem c9_parallel_unimplemented_witness :
    addChunk cfgPar (freshState cfgPar) [⟨0, [1]⟩] =
      .error .parallelUnimplemented :=
  c9_parallel_unimplemented cfgPar (freshState cfgPar) [⟨0, [1]⟩] rfl (by decide)

/-- C10 (AddChunk mutates the caller's payload chunk): for every
non-empty batch whose probe phase completes, with at least one
non-COUNT_STAR aggregate, every processed payload column leaves the call
with `sel_vector` reassigned to one of `AddChunk`'s stack-local
selection arrays and `count` overwritten with that selection's size
(lines 137-161 assign both fields in each branch and nothing restores
them): the final metadata is `(some sel, sel.length)` for a non-empty
selection `sel`, regardless of the caller's original metadata. -/
theorem c10_payload_chunk_mutation (cfg : HTConfig K) (s : HTState K)
    (rows : List (Row K)) (orig : Option (List Nat) × Nat) (hne : rows ≠ [])
    (hagg : cfg.aggTypes.all (fun a => decide (a = AggType.countStar)) = false)
    (s1 : HTState K) (hits : List (Hit K))
    (hok : probeRows cfg s 0 rows = .ok (s1, hits)) :
    ∃ sel : List Nat,
      payloadMetaAfter cfg s rows orig = .ok (some sel, sel.length) ∧
      sel ≠ [] := by
  have hrows := probeRows_map_row cfg rows s 0 s1 hits hok
  have hhits : hits ≠ [] := by
    intro hh
    rw [hh] at hrows
    exact hne hrows.symm
  unfold payloadMetaAfter
  rw [hok, hagg]
  simp only [Bool.false_eq_true, if_false]
  by_cases hu : ((hits.filter (fun h => !h.isNew)).map (fun h => h.rowIdx)).isEmpty
  · have hufn : hits.filter (fun h => !h.isNew) = [] := by
      have := List.isEmpty_iff.mp hu
      rwa [List.map_eq_nil_iff] at this
    have hnfn : hits.filter (fun h => h.isNew) ≠ [] := by
      intro hnfe
      apply hhits
      rw [List.eq_nil_iff_forall_not_mem]
      intro h hm
      rcases Bool.eq_false_or_eq_true h.isNew with hb | hb
      · have hmem : h ∈ hits.filter (fun h => h.isNew) :=
          List.mem_filter.mpr ⟨hm, hb⟩
        rw [hnfe] at hmem
        cases hmem
      · have hmem : h ∈ hits.filter (fun h => !h.isNew) :=
          List.mem_filter.mpr ⟨hm, by rw [hb]; rfl⟩
        rw [hufn] at hmem
        cases hmem
    rw [if_pos hu]
    have hmapne : (hits.filter (fun h => h.isNew)).map (fun h => h.rowIdx) ≠ [] := by
      intro hc
      rw [List.map_eq_nil_iff] at hc
      exact hnfn hc
    have hie : ¬ (((hits.filter (fun h => h.isNew)).map (fun h => h.rowIdx)).isEmpty = true) := by
      simpa [List.isEmpty_iff] using hmapne
    rw [if_neg hie]
    exact ⟨_, rfl, hmapne⟩
  · rw [if_neg hu]
    refine ⟨_, rfl, ?_⟩
    intro hc
    apply hu
    rw [hc]
    rfl

/-- Capacity-16 table with a single SUM aggregate used by several
witnesses (spec §8 scenario S1 shape). -/
def cfgW : HTConfig Nat := ⟨16, 8, 8, [.sum], [8], false, fun k => k⟩

theorem c10_payload_chunk_mutation_witness :
    ∃ sel : List Nat,
      payloadMetaAfter cfgW (freshState cfgW) [⟨7, [10]⟩, ⟨7, [20]⟩] (none, 2) =
        .ok (some sel, sel.length) ∧ sel ≠ [] :=
  c10_payload_chunk_mutation cfgW (freshState cfgW) [⟨7, [10]⟩, ⟨7, [20]⟩]
    (none, 2) (by decide) (by decide) _ _ rfl

/-- C1 (Group uniqueness): after any sequence of `AddChunk` calls on a
fresh table that completes without error, (a) at most one FULL slot
holds any given GROUP_KEYS value, and (b) a key is stored in some FULL
slot exactly when it occurs among the grouping keys of the ingested
rows.  (Executions in which the probe runs off the buffer end, see C5,
surface as errors and produce no state.) -/
theorem c1_group_uniqueness (cfg : HTConfig K) (chunks : List (List (Row K)))
    (s : HTState K) (h : ingestAll cfg (freshState cfg) chunks = .ok s) :
    (∀ i j, i < cfg.capacity → j < cfg.capacity → slotFull s i → slotFull s j →
      (s.slots i).key = (s.slots j).key → i = j) ∧
    (∀ k : K, (∃ i, i < cfg.capacity ∧ slotFull s i ∧ (s.slots i).key = k) ↔
      k ∈ chunks.flatten.map Row.key) := by
  have inv := ingestAll_inv cfg chunks (freshState cfg) [] s (tableInv_fresh cfg) h
  rw [List.nil_append] at inv
  refine ⟨inv.inj, ?_⟩
  intro k
  constructor
  · rintro ⟨i, hi, hf, rfl⟩
    exact inv.sound i hi hf
  · intro hk
    obtain ⟨r, hr, hkr⟩ := List.mem_map.mp hk
    obtain ⟨i, hi, hf, hki⟩ := inv.complete r hr
    exact ⟨i, hi, hf, by rw [hki, hkr]⟩

/-- Batches used by the C1/C2 witnesses: two distinct keys, one of them
ingested twice, split over two chunks. -/
def chunksW : List (List (Row Nat)) := [[⟨7, [10]⟩, ⟨3, [5]⟩], [⟨7, [20]⟩]]

theorem c1_group_uniqueness_witness :
    (∀ i j, i < cfgW.capacity → j < cfgW.capacity →
      slotFull (afterIngest cfgW chunksW) i →
      slotFull (afterIngest cfgW chunksW) j →
      ((afterIngest cfgW chunksW).slots i).key =
        ((afterIngest cfgW chunksW).slots j).key → i = j) ∧
    (∀ k : Nat, (∃ i, i < cfgW.capacity ∧ slotFull (afterIngest cfgW chunksW) i ∧
      ((afterIngest cfgW chunksW).slots i).key = k) ↔
      k ∈ chunksW.flatten.map Row.key) :=
  c1_group_uniqueness cfgW chunksW (afterIngest cfgW chunksW) rfl

/-- C2 (Count conservation): after any error-free sequence of `AddChunk`
calls on a fresh table, the sum of the trailing COUNT field over all
FULL slots equals the number of rows ingested; each FULL slot's COUNT
equals the number of ingested rows routed to it (its group's rows) — the
cumulative form of "the final `Scatter::Add(one, addresses)` of line 192
advances COUNT by exactly 1 per routed row, starting from the zeroed
COUNT of a newly claimed slot (line 104)" — and hence COUNT ≥ 1. -/
theorem c2_count_conservation (cfg : HTConfig K) (chunks : List (List (Row K)))
    (s : HTState K) (h : ingestAll cfg (freshState cfg) chunks = .ok s) :
    sumCounts cfg s = chunks.flatten.length ∧
    (∀ i, i < cfg.capacity → slotFull s i →
      (s.slots i).count = (rowsFor (s.slots i).key chunks.flatten).length ∧
      1 ≤ (s.slots i).count) := by
  have inv := ingestAll_inv cfg chunks (freshState cfg) [] s (tableInv_fresh cfg) h
  rw [List.nil_append] at inv
  have hsum := ingestAll_sumCounts cfg chunks (freshState cfg) [] s
    (tableInv_fresh cfg) h
  rw [sumCounts_fresh] at hsum
  refine ⟨by simpa using hsum, ?_⟩
  intro i hi hf
  refine ⟨inv.counts i hi hf, ?_⟩
  rw [inv.counts i hi hf]
  have hne : rowsFor (s.slots i).key chunks.flatten ≠ [] :=
    rowsFor_ne_nil_of_mem (inv.sound i hi hf)
  cases hrf : rowsFor (s.slots i).key chunks.flatten with
  | nil => exact absurd hrf hne
  | cons a l => simp

theorem c2_count_conservation_witness :
    sumCounts cfgW (afterIngest cfgW chunksW) = chunksW.flatten.length ∧
    (∀ i, i < cfgW.capacity → slotFull (afterIngest cfgW chunksW) i →
      ((afterIngest cfgW chunksW).slots i).count =
        (rowsFor ((afterIngest cfgW chunksW).slots i).key chunksW.flatten).length ∧
      1 ≤ ((afterIngest cfgW chunksW).slots i).count) :=
  c2_count_conservation cfgW chunksW (afterIngest cfgW chunksW) rfl

/-- C3 (SUM/MIN/MAX correctness): after any error-free ingest sequence
on a fresh table, for every FULL slot and every payload column: a SUM
accumulator equals the sum of that column over the slot's group's rows;
a MIN (resp. MAX) accumulator is an element of those values and a lower
(resp. upper) bound for them, i.e. their minimum (resp. maximum); and —
second conjunct — the stored accumulator for a group depends only on the
multiset of ingested rows: any other error-free ingest of a permutation
of the same rows stores the same SUM/MIN/MAX accumulator for the same
grouping key. -/
theorem c3_sum_min_max (cfg : HTConfig K) (chunks : List (List (Row K)))
    (s : HTState K) (h : ingestAll cfg (freshState cfg) chunks = .ok s) :
    (∀ i, i < cfg.capacity → slotFull s i → ∀ j, j < nPayload cfg →
      (((nonStarAggs cfg).getD j .countStar = .sum →
        (s.slots i).acc.getD j 0 =
          ((rowsFor (s.slots i).key chunks.flatten).map
            (fun r => r.vals.getD j 0)).sum) ∧
       ((nonStarAggs cfg).getD j .countStar = .min →
        (s.slots i).acc.getD j 0 ∈
            (rowsFor (s.slots i).key chunks.flatten).map
              (fun r => r.vals.getD j 0) ∧
          ∀ x ∈ (rowsFor (s.slots i).key chunks.flatten).map
              (fun r => r.vals.getD j 0), (s.slots i).acc.getD j 0 ≤ x) ∧
       ((nonStarAggs cfg).getD j .countStar = .max →
        (s.slots i).acc.getD j 0 ∈
            (rowsFor (s.slots i).key chunks.flatten).map
              (fun r => r.vals.getD j 0) ∧
          ∀ x ∈ (rowsFor (s.slots i).key chunks.flatten).map
              (fun r => r.vals.getD j 0), x ≤ (s.slots i).acc.getD j 0))) ∧
    (∀ (chunks₂ : List (List (Row K))) (s₂ : HTState K),
      ingestAll cfg (freshState cfg) chunks₂ = .ok s₂ →
      chunks₂.flatten.Perm chunks.flatten →
      ∀ i₂ i, i₂ < cfg.capacity → i < cfg.capacity → slotFull s₂ i₂ →
        slotFull s i → (s₂.slots i₂).key = (s.slots i).key →
        ∀ j, j < nPayload cfg →
          ((nonStarAggs cfg).getD j .countStar = .sum ∨
           (nonStarAggs cfg).getD j .countStar = .min ∨
           (nonStarAggs cfg).getD j .countStar = .max) →
          (s₂.slots i₂).acc.getD j 0 = (s.slots i).acc.getD j 0) := by
  have inv := ingestAll_inv cfg chunks (freshState cfg) [] s (tableInv_fresh cfg) h
  rw [List.nil_append] at inv
  have hvals : ∀ i, i < cfg.capacity → slotFull s i → ∀ j,
      ((rowsFor (s.slots i).key chunks.flatten).map
        (fun r => r.vals.getD j 0)) ≠ [] := by
    intro i hi hf j
    intro hc
    rw [List.map_eq_nil_iff] at hc
    exact rowsFor_ne_nil_of_mem (inv.sound i hi hf) hc
  constructor
  · intro i hi hf j hj
    have hacc := inv.accs i hi hf j hj
    refine ⟨?_, ?_, ?_⟩
    · intro ha
      rw [hacc, ha]
      exact aggValue_sum _ (hvals i hi hf j)
    · intro ha
      rw [hacc, ha]
      exact ⟨aggValue_min_mem _ (hvals i hi hf j),
        fun x hx => aggValue_min_le _ x hx⟩
    · intro ha
      rw [hacc, ha]
      exact ⟨aggValue_max_mem _ (hvals i hi hf j),
        fun x hx => aggValue_max_ge _ x hx⟩
  · intro chunks₂ s₂ h₂ hperm i₂ i hi₂ hi hf₂ hf hkey j hj hkind
    have inv₂ := ingestAll_inv cfg chunks₂ (freshState cfg) [] s₂
      (tableInv_fresh cfg) h₂
    rw [List.nil_append] at inv₂
    have hacc := inv.accs i hi hf j hj
    have hacc₂ := inv₂.accs i₂ hi₂ hf₂ j hj
    rw [hkey] at hacc₂
    have hpermv : ((rowsFor (s.slots i).key chunks₂.flatten).map
        (fun r => r.vals.getD j 0)).Perm
        ((rowsFor (s.slots i).key chunks.flatten).map
          (fun r => r.vals.getD j 0)) := by
      apply List.Perm.map
      exact hperm.filter _
    have hvals₂ : ((rowsFor (s.slots i).key chunks₂.flatten).map
        (fun r => r.vals.getD j 0)) ≠ [] := by
      intro hc
      apply hvals i hi hf j
      have hp2 := hpermv
      rw [hc] at hp2
      exact (List.Perm.nil_eq hp2).symm
    rcases hkind with ha | ha | ha
    · rw [hacc, hacc₂, ha,
        aggValue_sum _ hvals₂, aggValue_sum _ (hvals i hi hf j)]
      exact hpermv.sum_eq
    · rw [hacc, hacc₂, ha]
      apply le_antisymm
      · exact aggValue_min_le _ _
          ((hpermv.mem_iff).mpr (aggValue_min_mem _ (hvals i hi hf j)))
      · exact aggValue_min_le _ _
          ((hpermv.mem_iff).mp (aggValue_min_mem _ hvals₂))
    · rw [hacc, hacc₂, ha]
      apply le_antisymm
      · exact aggValue_max_ge _ _
          ((hpermv.mem_iff).mp (aggValue_max_mem _ hvals₂))
      · exact aggValue_max_ge _ _
          ((hpermv.mem_iff).mpr (aggValue_max_mem _ (hvals i hi hf j)))

/-- Capacity-8 table with SUM, MIN and MAX aggregates used by the C3
witness. -/
def cfgW3 : HTConfig Nat := ⟨8, 8, 24, [.sum, .min, .max], [8, 8, 8], false, fun k => k⟩

/-- Batches used by the C3 witness. -/
def chunksW3 : List (List (Row Nat)) := [[⟨1, [1, 5, 2]⟩, ⟨1, [4, 3, 9]⟩]]

theorem c3_sum_min_max_witness :
    (∀ i, i < cfgW3.capacity → slotFull (afterIngest cfgW3 chunksW3) i →
      ∀ j, j < nPayload cfgW3 →
      (((nonStarAggs cfgW3).getD j .countStar = .sum →
        ((afterIngest cfgW3 chunksW3).slots i).acc.getD j 0 =
          ((rowsFor ((afterIngest cfgW3 chunksW3).slots i).key chunksW3.flatten).map
            (fun r => r.vals.getD j 0)).sum) ∧
       (((nonStarAggs cfgW3).getD j .countStar = .min →
        ((afterIngest cfgW3 chunksW3).slots i).acc.getD j 0 ∈
            (rowsFor ((afterIngest cfgW3 chunksW3).slots i).key chunksW3.flatten).map
              (fun r => r.vals.getD j 0) ∧
          ∀ x ∈ (rowsFor ((afterIngest cfgW3 chunksW3).slots i).key chunksW3.flatten).map
              (fun r => r.vals.getD j 0),
            ((afterIngest cfgW3 chunksW3).slots i).acc.getD j 0 ≤ x)) ∧
       ((nonStarAggs cfgW3).getD j .countStar = .max →
        ((afterIngest cfgW3 chunksW3).slots i).acc.getD j 0 ∈
            (rowsFor ((afterIngest cfgW3 chunksW3).slots i).key chunksW3.flatten).map
              (fun r => r.vals.getD j 0) ∧
          ∀ x ∈ (rowsFor ((afterIngest cfgW3 chunksW3).slots i).key chunksW3.flatten).map
              (fun r => r.vals.getD j 0),
            x ≤ ((afterIngest cfgW3 chunksW3).slots i).acc.getD j 0))) ∧
    (∀ (chunks₂ : List (List (Row Nat))) (s₂ : HTState Nat),
      ingestAll cfgW3 (freshState cfgW3) chunks₂ = .ok s₂ →
      chunks₂.flatten.Perm chunksW3.flatten →
      ∀ i₂ i, i₂ < cfgW3.capacity → i < cfgW3.capacity → slotFull s₂ i₂ →
        slotFull (afterIngest cfgW3 chunksW3) i →
        (s₂.slots i₂).key = ((afterIngest cfgW3 chunksW3).slots i).key →
        ∀ j, j < nPayload cfgW3 →
          ((nonStarAggs cfgW3).getD j .countStar = .sum ∨
           (nonStarAggs cfgW3).getD j .countStar = .min ∨
           (nonStarAggs cfgW3).getD j .countStar = .max) →
          (s₂.slots i₂).acc.getD j 0 =
            ((afterIngest cfgW3 chunksW3).slots i).acc.getD j 0) :=
  c3_sum_min_max cfgW3 chunksW3 (afterIngest cfgW3 chunksW3) rfl

/-- Capacity-2 table over `Nat` keys with the identity hash and one SUM
aggregate; used by the C5, C6 and C8 evidence. -/
def cfg2 : HTConfig Nat := ⟨2, 8, 8, [.sum], [8], false, fun k => k⟩

/-- Capacity-3 variant used by the C7 evidence. -/
def cfg3 : HTConfig Nat := ⟨3, 8, 8, [.sum], [8], false, fun k => k⟩

/-- Capacity-2 table with a single AVG aggregate over a 64-bit integer
column; used by the C4 evidence. -/
def cfgAvg : HTConfig Nat := ⟨2, 8, 8, [.avg], [8], false, fun k => k⟩

/-- C4 evidence (code bug): AVG of a negative sum is not truncating
integer division.  Two rows of group 0 with payload −1 are ingested
(stored sum −2, trailing COUNT 2); `Scan` emits AVG = 2^63 − 1, because
line 279 divides the int64 sum by the uint64 count, which under the C++
usual arithmetic conversions converts the sum to `uint64_t`
(2^64 − 2) and divides unsigned; truncating division, which the claim
and spec §4.3 prescribe, gives −1. -/
theorem c4_avg_division_not_truncating :
    (scan cfgAvg (afterIngest cfgAvg [[⟨0, [-1]⟩, ⟨0, [-1]⟩]]) 0 1024).resultOut =
      [[(2 : Int) ^ 63 - 1]] ∧
    ((afterIngest cfgAvg [[⟨0, [-1]⟩, ⟨0, [-1]⟩]]).slots 0).acc = [-2] ∧
    ((afterIngest cfgAvg [[⟨0, [-1]⟩, ⟨0, [-1]⟩]]).slots 0).count = 2 ∧
    Int.tdiv (-2) 2 = -1 ∧ (2 : Int) ^ 63 - 1 ≠ -1 :=
  ⟨by decide, by decide, by decide, by decide, by decide⟩

/-- C5 evidence (code bug): the probe inspects the slot at index
`capacity`.  Keys 1 and 3 both hash to slot 1 of the capacity-2 table;
the first claims slot 1, the second finds it occupied by a different
key, advances to index 2 = capacity — which the strict wrap test of
line 119 does not redirect to slot 0 — and dereferences one slot past
the buffer (modelled as the out-of-bounds error; the second conjunct
isolates the probe itself). -/
theorem c5_probe_reads_past_capacity :
    addChunk cfg2 (freshState cfg2) [⟨1, [5]⟩, ⟨3, [7]⟩] =
      .error .probeOutOfBounds ∧
    probeFrom cfg2 (afterIngest cfg2 [[⟨1, [5]⟩]]) 3 1 = none :=
  ⟨rfl, rfl⟩

/-- C6 evidence (code bug): after a `Scan` that emits a row,
`scan_position` is not the slot index just past the last slot visited.
One FULL slot in a capacity-2 table with `tuple_size = 25`: the walk
visits slots 0 and 1 and stops at slot index 2, but line 267 stores
`ptr - start` — the byte distance travelled — so the cursor becomes
2 * 25 = 50, not 2. -/
theorem c6_scan_cursor_is_byte_offset :
    (scan cfg2 (afterIngest cfg2 [[⟨0, [5]⟩]]) 0 1024).outCount = 1 ∧
    (scanWalk cfg2 (afterIngest cfg2 [[⟨0, [5]⟩]]) 1024 0 0).2 = 2 ∧
    (scan cfg2 (afterIngest cfg2 [[⟨0, [5]⟩]]) 0 1024).newPos = 50 ∧
    (50 : Nat) ≠ 2 :=
  ⟨rfl, rfl, rfl, by decide⟩

/-- C7 evidence (code bug): scanning from cursor 0 until an empty output
does not enumerate every FULL slot when more than one batch is needed.
Capacity 3, FULL slots 0 and 1, output batches of maximum size 1: the
first call emits slot 0 and sets the cursor to `tuple_size = 25` (the
byte-offset bug of C6); the second call starts at slot index 25 ≥
capacity and emits nothing, so the loop stops having emitted only slot 0
while slot 1 is FULL. -/
theorem c7_repeated_scan_misses_full_slot :
    scanUntilEmpty cfg3 (afterIngest cfg3 [[⟨0, [5]⟩, ⟨1, [7]⟩]]) 1 10 0 = [0] ∧
    slotFull (afterIngest cfg3 [[⟨0, [5]⟩, ⟨1, [7]⟩]]) 1 ∧
    (1 : Nat) ∉ ([0] : List Nat) :=
  ⟨rfl, by decide, by decide⟩

/-- C8 evidence (code bug): no `CapacityExhausted` detection exists.
Keys 0 and 1 fill both slots of the capacity-2 table; ingesting the
fresh key 2 probes slot 0 and slot 1 (both FULL with different keys) and
then, instead of failing with `CapacityExhausted`, the unbounded
`do/while(true)` loop of lines 96-122 dereferences the slot at index
capacity (out of bounds; with whatever byte sits there, the loop either
claims memory outside the table or keeps cycling through the same FULL
slots forever). -/
theorem c8_no_capacity_exhausted_detection :
    (afterIngest cfg2 [[⟨0, [1]⟩, ⟨1, [1]⟩]]).entries = 2 ∧
    slotFull (afterIngest cfg2 [[⟨0, [1]⟩, ⟨1, [1]⟩]]) 0 ∧
    slotFull (afterIngest cfg2 [[⟨0, [1]⟩, ⟨1, [1]⟩]]) 1 ∧
    addChunk cfg2 (afterIngest cfg2 [[⟨0, [1]⟩, ⟨1, [1]⟩]]) [⟨2, [1]⟩] =
      .error .probeOutOfBounds :=
  ⟨rfl, by decide, by decide, rfl⟩

end AggHT
